import Mathlib

/-!
Verification development for the storage-side memory-management core of the
cmu15445-2023 repository: the copy-on-write trie (`src/primer/trie.cpp`), the
LRU-K replacer (`src/buffer/lru_k_replacer.cpp`) and the buffer pool manager
(`src/buffer/buffer_pool_manager.cpp`).

The C++ code is shallowly embedded: each member function becomes a pure Lean
function on an explicit state record; the disk manager becomes a `Int → Nat`
store plus an explicit trace of disk calls; `std::map` / `std::unordered_map`
instances become association lists with unique keys; `std::list` instances
become Lean lists (front of the C++ list = head of the Lean list).
-/

set_option maxHeartbeats 1600000

namespace BusTub

/-! ## Association lists for `std::map<char, std::shared_ptr<const TrieNode>>`

`findA` models `count`/`at` (lookup of the unique entry with the given key),
`insertA` models `operator[]` assignment (replace the unique entry in place, or
add a fresh one), `eraseA` models `erase` (drop the entry with the given key;
on lists whose keys are unique—the only ones the trie code ever builds—dropping
every entry with the key is the same operation). -/

def findA {α : Type} : List (Char × α) → Char → Option α
  | [], _ => none
  | (c', a) :: rest, c => if c' = c then some a else findA rest c

def insertA {α : Type} : List (Char × α) → Char → α → List (Char × α)
  | [], c, a => [(c, a)]
  | (c', a') :: rest, c, a =>
    if c' = c then (c, a) :: rest else (c', a') :: insertA rest c a

def eraseA {α : Type} : List (Char × α) → Char → List (Char × α)
  | [], _ => []
  | (c', a') :: rest, c =>
    if c' = c then eraseA rest c else (c', a') :: eraseA rest c

/-! ## Trie data model (`src/primer/trie.cpp`)

C++ values are type-erased behind `TrieNodeWithValue<T>` and recovered with
`dynamic_cast<const TrieNodeWithValue<T>*>`; we model the runtime type identity
with a tag (`TTag`) and store a tagged value.  The representative value types
are the explicit template instantiations of the source file. -/

inductive TTag where
  | u32
  | u64
  | str
  deriving DecidableEq

@[reducible] def TInterp : TTag → Type
  | .u32 => Nat
  | .u64 => Nat
  | .str => String

/-- A stored trie value: a runtime type tag plus a value of that type
(models the `TrieNodeWithValue<T>` dynamic type and its `value_`). -/
structure TValue where
  tag : TTag
  val : TInterp tag

/-- A trie node: a children map plus an optional value.  `value = some _`
corresponds to the dynamic type `TrieNodeWithValue<T>` (`is_value_node_ =
true`); `value = none` to a plain `TrieNode`.  `Clone()` preserves both the
children and the value, which the embedding gets for free since nodes are
immutable Lean values. -/
inductive TrieNode where
  | mk (children : List (Char × TrieNode)) (value : Option TValue)

def TrieNode.children : TrieNode → List (Char × TrieNode)
  | .mk cs _ => cs

def TrieNode.value : TrieNode → Option TValue
  | .mk _ v => v

/-- A trie: an optional shared root (`root_`, possibly `nullptr`). -/
structure Trie where
  root : Option TrieNode

/-- Model of `Trie::Get<T>`: walk the key; at the final node return the value only if it
is a value node whose runtime type matches the requested tag
(`dynamic_cast` failure yields `nullptr`, i.e. `none`). -/
def getNode : TrieNode → List Char → Option TrieNode
  | n, [] => some n
  | n, c :: rest =>
    match findA n.children c with
    | none => none
    | some ch => getNode ch rest

def Trie.Get (t : Trie) (τ : TTag) (key : List Char) : Option (TInterp τ) :=
  match t.root with
  | none => none
  | some r =>
    match getNode r key with
    | none => none
    | some n =>
      match n.value with
      | none => none
      | some tv => if h : tv.tag = τ then some (h ▸ tv.val) else none

/-- The loop of `Trie::Put` after the root has been cloned: on each inner
character clone the existing child (or create a fresh interior node) and
substitute it; at the final character install a value node that keeps the
existing child's children.  Since Lean values are immutable, "clone then
mutate the fresh copy" becomes building the new node directly. -/
def putGo (n : TrieNode) (key : List Char) (tv : TValue) : TrieNode :=
  match key with
  | [] => n
  | [c] =>
    match findA n.children c with
    | none => .mk (insertA n.children c (.mk [] (some tv))) n.value
    | some ch => .mk (insertA n.children c (.mk ch.children (some tv))) n.value
  | c :: rest =>
    match findA n.children c with
    | none => .mk (insertA n.children c (putGo (.mk [] none) rest tv)) n.value
    | some ch => .mk (insertA n.children c (putGo ch rest tv)) n.value

/-- Model of `Trie::Put`.  A null root is replaced by a fresh empty node first; an empty
key makes the new root a value node carrying the old root's children. -/
def Trie.Put (t : Trie) (key : List Char) (tv : TValue) : Trie :=
  match t.root, key with
  | none, [] => ⟨some (.mk [] (some tv))⟩
  | none, k => ⟨some (putGo (.mk [] none) k tv)⟩
  | some r, [] => ⟨some (.mk r.children (some tv))⟩
  | some r, k => ⟨some (putGo r k tv)⟩

/-- Model of `Trie::Dfs`, the copy-on-write removal walk, for a non-null node.  At the
end of the key: prune a childless node (`none` upward), otherwise return a
non-value copy keeping the children.  On unwind: substitute the rewritten
child, or erase it when it was pruned, and propagate the pruning when the
copy ends up childless and holds no value.  A missing branch returns the
node unchanged. -/
def dfs (root : TrieNode) (key : List Char) : Option TrieNode :=
  match key with
  | [] =>
    match root.children with
    | [] => none
    | _ => some (.mk root.children none)
  | c :: rest =>
    match findA root.children c with
    | some ch =>
      match dfs ch rest with
      | some nn => some (.mk (insertA root.children c nn) root.value)
      | none =>
        match root.value, eraseA root.children c with
        | none, [] => none
        | v, cs => some (.mk cs v)
    | none => some root

/-- Model of `Trie::Remove`: the source calls `Dfs(root_, key, 0)`, which immediately dereferences
`root_`.  When the trie is empty (`root_ == nullptr`) that dereference is
undefined behavior; we surface it as `Except.error ()`. -/
def Trie.Remove (t : Trie) (key : List Char) : Except Unit Trie :=
  match t.root with
  | none => .error ()
  | some r => .ok ⟨dfs r key⟩

/-- The value stored at `key` (the node's `value_` when the key's node exists),
used to phrase which keys are bound in a trie. -/
def valueAt (t : Trie) (key : List Char) : Option TValue :=
  match t.root with
  | none => none
  | some r => (getNode r key).bind TrieNode.value

/-! ## LRU-K replacer (`src/buffer/lru_k_replacer.cpp`)

`history_list_`/`cache_list_` are `std::list<frame_id_t>` with `push_front`
insertion; the Lean list head is the C++ front.  `history_map_`/`cache_map_`
only cache list iterators, so list membership replaces them.  `use_count_` and
`is_accessible_` become total functions (their default-initialized entries are
`0` and `false`).  `curr_size_` is a `size_t`; we model it as `Int`, which
agrees with the machine value modulo `2^64` (reachable states never decrement
it at `0`, as the size-law theorem below shows).  The per-frame fields members
are initialized empty/zero by the constructor (`is_accessible_.resize(...)`;
the remaining members are default-initialized as the spec's data model
states). -/

structure LRUKReplacer where
  replacerSize : Nat
  k : Nat
  historyList : List Nat
  cacheList : List Nat
  useCount : Nat → Nat
  isAccessible : Nat → Bool
  currSize : Int

def initReplacer (numFrames k : Nat) : LRUKReplacer :=
  { replacerSize := numFrames, k := k, historyList := [], cacheList := [],
    useCount := fun _ => 0, isAccessible := fun _ => false, currSize := 0 }

/-- The backwards scan of `Evict`: starting from the tail (`it = list.end()`,
then `it--`), return the first accessible frame found, i.e. the accessible
element of the list closest to its back (the recursion tries the tail — the
back of the list — before the head element). -/
def findVictim (acc : Nat → Bool) : List Nat → Option Nat
  | [] => none
  | x :: xs =>
    match findVictim acc xs with
    | some v => some v
    | none => if acc x then some x else none

/-- Model of `LRUKReplacer::Evict`: scan the history list back to front for an
accessible frame; only if none exists, scan the cache list back to front.  On
success reset the victim's state and drop it from its list. -/
def LRUKReplacer.Evict (s : LRUKReplacer) : Option Nat × LRUKReplacer :=
  if s.historyList = [] ∧ s.cacheList = [] then (none, s)
  else
    match findVictim s.isAccessible s.historyList with
    | some v =>
      (some v,
       { s with currSize := s.currSize - 1,
                isAccessible := fun f => if f = v then false else s.isAccessible f,
                useCount := fun f => if f = v then 0 else s.useCount f,
                historyList := s.historyList.erase v })
    | none =>
      match findVictim s.isAccessible s.cacheList with
      | some v =>
        (some v,
         { s with currSize := s.currSize - 1,
                  isAccessible := fun f => if f = v then false else s.isAccessible f,
                  useCount := fun f => if f = v then 0 else s.useCount f,
                  cacheList := s.cacheList.erase v })
      | none => (none, s)

/-- The body of `LRUKReplacer::RecordAccess` after the range check: bump
`use_count_[f]`; when the new count reaches `k`, move the frame from the
history list to the front of the cache list; above `k`, move it to the front of
the cache list; below `k`, insert it at the front of the history list only if
it is not there yet. -/
def LRUKReplacer.RecordAccessCore (s : LRUKReplacer) (f : Nat) : LRUKReplacer :=
  let c := s.useCount f + 1
  let s1 := { s with useCount := fun x => if x = f then c else s.useCount x }
  if c = s.k then
    let s2 := if f ∈ s1.historyList
      then { s1 with historyList := s1.historyList.erase f } else s1
    { s2 with cacheList := f :: s2.cacheList }
  else if s.k < c then
    let s2 := if f ∈ s1.cacheList
      then { s1 with cacheList := s1.cacheList.erase f } else s1
    { s2 with cacheList := f :: s2.cacheList }
  else
    if f ∈ s1.historyList then s1
    else { s1 with historyList := f :: s1.historyList }

/-- Model of `LRUKReplacer::RecordAccess`: the source throws exactly when
`frame_id > replacer_size_` (note: strictly greater; the constructor sizes
`is_accessible_` as `num_frames + 1`). -/
def LRUKReplacer.RecordAccess (s : LRUKReplacer) (f : Nat) : Except Unit LRUKReplacer :=
  if s.replacerSize < f then .error () else .ok (s.RecordAccessCore f)

/-- The body of `LRUKReplacer::SetEvictable` after the range check: a no-op for
frames never accessed (`use_count_ == 0`); otherwise adjust `curr_size_` on an
actual transition and store the flag.  The source's two `if` statements are
mutually exclusive and both test the pre-assignment `is_accessible_[f]`, so
they amount to the single three-way adjustment below. -/
def LRUKReplacer.SetEvictableCore (s : LRUKReplacer) (f : Nat) (b : Bool) : LRUKReplacer :=
  if s.useCount f = 0 then s
  else
    { s with
      currSize :=
        if s.isAccessible f = true ∧ b = false then s.currSize - 1
        else if s.isAccessible f = false ∧ b = true then s.currSize + 1
        else s.currSize,
      isAccessible := fun x => if x = f then b else s.isAccessible x }

def LRUKReplacer.SetEvictable (s : LRUKReplacer) (f : Nat) (b : Bool) : Except Unit LRUKReplacer :=
  if s.replacerSize < f then .error () else .ok (s.SetEvictableCore f b)

/-- The body of `LRUKReplacer::Remove` after the range check: a silent no-op on
non-accessible frames; otherwise drop the frame from the list chosen by
`use_count_ < k_` and reset its state. -/
def LRUKReplacer.RemoveCore (s : LRUKReplacer) (f : Nat) : LRUKReplacer :=
  if s.isAccessible f = false then s
  else
    let s1 :=
      if s.useCount f < s.k
      then { s with historyList := s.historyList.erase f }
      else { s with cacheList := s.cacheList.erase f }
    { s1 with useCount := fun x => if x = f then 0 else s1.useCount x,
              isAccessible := fun x => if x = f then false else s1.isAccessible x,
              currSize := s1.currSize - 1 }

def LRUKReplacer.Remove (s : LRUKReplacer) (f : Nat) : Except Unit LRUKReplacer :=
  if s.replacerSize < f then .error () else .ok (s.RemoveCore f)

def LRUKReplacer.Size (s : LRUKReplacer) : Int := s.currSize

/-- Whether a checked replacer call threw. -/
def exErr {α : Type} : Except Unit α → Bool
  | .error _ => true
  | .ok _ => false

/-- A replacer call issued by a client; a throwing call leaves the state
unchanged (the throw happens before any mutation). -/
inductive ROp where
  | record (f : Nat)
  | setEvict (f : Nat) (b : Bool)
  | evictOp
  | removeOp (f : Nat)

def applyR (s : LRUKReplacer) (op : ROp) : LRUKReplacer :=
  match op with
  | .record f => match s.RecordAccess f with | .ok s' => s' | .error _ => s
  | .setEvict f b => match s.SetEvictable f b with | .ok s' => s' | .error _ => s
  | .evictOp => s.Evict.snd
  | .removeOp f => match s.Remove f with | .ok s' => s' | .error _ => s

def runR (s : LRUKReplacer) (ops : List ROp) : LRUKReplacer :=
  ops.foldl applyR s

/-- The number of frames whose evictable flag is set (the frames the replacer
tracks all lie in `[0, replacerSize]`, the index range of `is_accessible_`). -/
def evictCount (s : LRUKReplacer) : Nat :=
  (List.range (s.replacerSize + 1)).countP fun f => s.isAccessible f

/-- The replacer's internal invariant used for the size law: the evictable
flag is only ever set for in-range frames, and `curr_size_` counts exactly
the evictable frames. -/
def RInv (s : LRUKReplacer) : Prop :=
  (∀ f, s.isAccessible f = true → f ≤ s.replacerSize) ∧ s.currSize = (evictCount s : Int)

/-- A small concrete replacer state (reachable by `RecordAccess 0;
SetEvictable 0 true` on a fresh replacer) used by the witnesses below. -/
def replacerW : LRUKReplacer :=
  { replacerSize := 3, k := 2, historyList := [0], cacheList := [],
    useCount := fun f => if f = 0 then 1 else 0,
    isAccessible := fun f => decide (f = 0), currSize := 1 }

/-! ## Buffer pool manager (`src/buffer/buffer_pool_manager.cpp`)

`page_table_` is an association list with unique keys (`std::unordered_map`
with its iteration order abstracted): `ptInsert` is `operator[]` assignment,
`ptErase` is `erase`.  The frame array `pages_` is a total function from frame
id; the disk manager is a store `Int → Nat` of page contents, and every
operation additionally returns the list of disk-manager calls it made, in
order.  The replacer sub-calls use the `...Core` bodies: the pool only ever
passes frame ids drawn from `free_list_` or from `Evict`, all `< pool_size =
replacer_size_`, for which the range guard of the checked entry points never
fires. -/

def INVALID_PAGE_ID : Int := -1

structure Page where
  pageId : Int
  pinCount : Nat
  isDirty : Bool
  data : Nat

/-- A default-constructed `Page`: invalid id, zero pin count, clean, zeroed
data. -/
def emptyPage : Page :=
  { pageId := INVALID_PAGE_ID, pinCount := 0, isDirty := false, data := 0 }

/-- One call into the disk manager. -/
inductive DiskOp where
  | write (pid : Int) (d : Nat)
  | read (pid : Int)
  | dealloc (pid : Int)
  deriving DecidableEq

structure BufferPoolManager where
  poolSize : Nat
  pages : Nat → Page
  pageTable : List (Int × Nat)
  freeList : List Nat
  replacer : LRUKReplacer
  nextPageId : Int
  disk : Int → Nat

def ptLookup : List (Int × Nat) → Int → Option Nat
  | [], _ => none
  | (q, f) :: rest, p => if q = p then some f else ptLookup rest p

def ptErase : List (Int × Nat) → Int → List (Int × Nat)
  | [], _ => []
  | (q, f) :: rest, p => if q = p then ptErase rest p else (q, f) :: ptErase rest p

def ptInsert (t : List (Int × Nat)) (p : Int) (f : Nat) : List (Int × Nat) :=
  (p, f) :: ptErase t p

/-- Model of `free_list_.back()` / `pop_back()`: detach the last element. -/
def popBack {α : Type} : List α → Option (α × List α)
  | [] => none
  | [a] => some (a, [])
  | x :: y :: rest =>
    match popBack (y :: rest) with
    | some (a, r) => some (a, x :: r)
    | none => none

def updFrame (pgs : Nat → Page) (i : Nat) (pg : Page) : Nat → Page :=
  fun j => if j = i then pg else pgs j

def diskWrite (d : Int → Nat) (p : Int) (v : Nat) : Int → Nat :=
  fun q => if q = p then v else d q

/-- The constructor: all frames default-constructed, free list populated with
`0 .. pool_size - 1` in order (`emplace_back`), replacer of the same size,
`next_page_id_ = 0`, empty page table. -/
def initBPM (poolSize replacerK : Nat) (disk : Int → Nat) : BufferPoolManager :=
  { poolSize := poolSize, pages := fun _ => emptyPage, pageTable := [],
    freeList := List.range poolSize, replacer := initReplacer poolSize replacerK,
    nextPageId := 0, disk := disk }

/-- Model of `BufferPoolManager::NewPage`: allocate a page id (the counter moves even on
failure), then take a frame from the back of the free list, or else evict a
victim — writing it back first when dirty and detaching its old page id — and
install the new page pinned once, recorded, and non-evictable. -/
def BufferPoolManager.NewPage (s : BufferPoolManager) :
    Option (Int × Nat) × BufferPoolManager × List DiskOp :=
  let pid := s.nextPageId
  let s0 : BufferPoolManager := { s with nextPageId := s.nextPageId + 1 }
  match popBack s0.freeList with
  | some (fid, rest) =>
    let s1 := { s0 with freeList := rest }
    let s2 := { s1 with
      pageTable := ptInsert s1.pageTable pid fid,
      pages := updFrame s1.pages fid
        { pageId := pid, pinCount := 1, isDirty := false, data := 0 } }
    let s3 := { s2 with
      replacer := (s2.replacer.RecordAccessCore fid).SetEvictableCore fid false }
    (some (pid, fid), s3, [])
  | none =>
    match s0.replacer.Evict with
    | (some fid, r) =>
      let s1 := { s0 with replacer := r }
      let old := s1.pages fid
      let sw := if old.isDirty
        then { s1 with pages := updFrame s1.pages fid { old with isDirty := false },
                       disk := diskWrite s1.disk old.pageId old.data }
        else s1
      let tw : List DiskOp :=
        if old.isDirty then [DiskOp.write old.pageId old.data] else []
      let s2 := { sw with pageTable := ptErase sw.pageTable old.pageId }
      let s3 := { s2 with
        pageTable := ptInsert s2.pageTable pid fid,
        pages := updFrame s2.pages fid
          { pageId := pid, pinCount := 1, isDirty := false, data := 0 } }
      let s4 := { s3 with
        replacer := (s3.replacer.RecordAccessCore fid).SetEvictableCore fid false }
      (some (pid, fid), s4, tw)
    | (none, r) => (none, { s0 with replacer := r }, [])

/-- Model of `BufferPoolManager::FetchPage`: a resident page is re-pinned and recorded;
otherwise obtain a frame as in `NewPage` (free list, else evict with dirty
write-back), read the page from disk into it, and install it pinned once.
Note the replacer call order of the miss path (`SetEvictable` before
`RecordAccess`), mirrored from the source. -/
def BufferPoolManager.FetchPage (s : BufferPoolManager) (pid : Int) :
    Option Nat × BufferPoolManager × List DiskOp :=
  match ptLookup s.pageTable pid with
  | some fid =>
    let fr := s.pages fid
    let s1 := { s with pages := updFrame s.pages fid { fr with pinCount := fr.pinCount + 1 } }
    let s2 := { s1 with
      replacer := (s1.replacer.RecordAccessCore fid).SetEvictableCore fid false }
    (some fid, s2, [])
  | none =>
    match popBack s.freeList with
    | some (fid, rest) =>
      let s1 := { s with freeList := rest }
      let s2 := { s1 with
        pageTable := ptInsert s1.pageTable pid fid,
        pages := updFrame s1.pages fid
          { pageId := pid, pinCount := 1, isDirty := false, data := s1.disk pid } }
      let s3 := { s2 with
        replacer := (s2.replacer.SetEvictableCore fid false).RecordAccessCore fid }
      (some fid, s3, [DiskOp.read pid])
    | none =>
      match s.replacer.Evict with
      | (some fid, r) =>
        let s1 := { s with replacer := r }
        let old := s1.pages fid
        let sw := if old.isDirty
          then { s1 with pages := updFrame s1.pages fid { old with isDirty := false },
                         disk := diskWrite s1.disk old.pageId old.data }
          else s1
        let tw : List DiskOp :=
          if old.isDirty then [DiskOp.write old.pageId old.data] else []
        let s2 := { sw with pageTable := ptErase sw.pageTable old.pageId }
        let s3 := { s2 with
          pageTable := ptInsert s2.pageTable pid fid,
          pages := updFrame s2.pages fid
            { pageId := pid, pinCount := 1, isDirty := false, data := s2.disk pid } }
        let s4 := { s3 with
          replacer := (s3.replacer.SetEvictableCore fid false).RecordAccessCore fid }
        (some fid, s4, tw ++ [DiskOp.read pid])
      | (none, r) => (none, { s with replacer := r }, [])

/-- Model of `BufferPoolManager::UnpinPage`: `false` for a non-resident page or a pin
count already at zero; otherwise OR the dirty flag in, decrement the pin
count, and mark the frame evictable when it reaches zero. -/
def BufferPoolManager.UnpinPage (s : BufferPoolManager) (pid : Int) (isDirty : Bool) :
    Bool × BufferPoolManager × List DiskOp :=
  match ptLookup s.pageTable pid with
  | none => (false, s, [])
  | some fid =>
    let fr := s.pages fid
    if fr.pinCount = 0 then (false, s, [])
    else
      let fr1 : Page :=
        { fr with isDirty := fr.isDirty || isDirty, pinCount := fr.pinCount - 1 }
      let s1 := { s with pages := updFrame s.pages fid fr1 }
      let s2 := if fr.pinCount - 1 = 0
        then { s1 with replacer := s1.replacer.SetEvictableCore fid true }
        else s1
      (true, s2, [])

/-- Model of `BufferPoolManager::FlushPage`: `false` for `INVALID_PAGE_ID` or a
non-resident page; otherwise write the frame to disk unconditionally and clear
its dirty flag. -/
def BufferPoolManager.FlushPage (s : BufferPoolManager) (pid : Int) :
    Bool × BufferPoolManager × List DiskOp :=
  if pid = INVALID_PAGE_ID then (false, s, [])
  else
    match ptLookup s.pageTable pid with
    | none => (false, s, [])
    | some fid =>
      let fr := s.pages fid
      let s1 := { s with disk := diskWrite s.disk fr.pageId fr.data,
                         pages := updFrame s.pages fid { fr with isDirty := false } }
      (true, s1, [DiskOp.write fr.pageId fr.data])

/-- Model of `BufferPoolManager::DeletePage`: `true` for a non-resident page; `false`
for a pinned one; otherwise write back if dirty, detach the page id, reset the
frame, remove it from the replacer, return it to the free list and deallocate
the page id. -/
def BufferPoolManager.DeletePage (s : BufferPoolManager) (pid : Int) :
    Bool × BufferPoolManager × List DiskOp :=
  match ptLookup s.pageTable pid with
  | none => (true, s, [])
  | some fid =>
    let fr := s.pages fid
    if fr.pinCount ≠ 0 then (false, s, [])
    else
      let sw := if fr.isDirty
        then { s with pages := updFrame s.pages fid { fr with isDirty := false },
                      disk := diskWrite s.disk fr.pageId fr.data }
        else s
      let tw : List DiskOp := if fr.isDirty then [DiskOp.write fr.pageId fr.data] else []
      let fr1 := sw.pages fid
      let s2 := { sw with
        pageTable := ptErase sw.pageTable pid,
        pages := updFrame sw.pages fid
          { fr1 with isDirty := false, data := 0, pageId := INVALID_PAGE_ID },
        replacer := sw.replacer.RemoveCore fid }
      let s3 := { s2 with freeList := s2.freeList ++ [fid] }
      (true, s3, tw ++ [DiskOp.dealloc pid])

/-- One public buffer-pool call (the operations named by the pin-safety
claim). -/
inductive BPOp where
  | newPage
  | fetch (pid : Int)
  | unpin (pid : Int) (d : Bool)
  | flush (pid : Int)
  | deletePage (pid : Int)

def applyBP (s : BufferPoolManager) (op : BPOp) : BufferPoolManager :=
  match op with
  | .newPage => s.NewPage.2.1
  | .fetch pid => (s.FetchPage pid).2.1
  | .unpin pid d => (s.UnpinPage pid d).2.1
  | .flush pid => (s.FlushPage pid).2.1
  | .deletePage pid => (s.DeletePage pid).2.1

def runBP (s : BufferPoolManager) (ops : List BPOp) : BufferPoolManager :=
  ops.foldl applyBP s

def ptKeys (t : List (Int × Nat)) : List Int := t.map Prod.fst

def ptVals (t : List (Int × Nat)) : List Nat := t.map Prod.snd

/-- A small concrete pool state used by the witnesses below: a one-frame pool
after `NewPage` (allocating page 0 into frame 0) and a dirty unpin, leaving
frame 0 dirty, unpinned and evictable, with an empty free list. -/
def bpmW : BufferPoolManager :=
  runBP (initBPM 1 1 (fun _ => 0)) [BPOp.newPage, BPOp.unpin 0 true]

/-- The system invariant of the buffer pool, maintained by every public
operation: evictable frames are unpinned, free frames are not evictable and
not resident, page-table keys and values are unique, the page table and the
frame metadata agree, and the free list has no duplicates. -/
structure SysInv (s : BufferPoolManager) : Prop where
  pinAcc : ∀ f, s.replacer.isAccessible f = true → (s.pages f).pinCount = 0
  freeAcc : ∀ f ∈ s.freeList, s.replacer.isAccessible f = false
  freeNotVal : ∀ f ∈ s.freeList, ∀ e ∈ s.pageTable, e.2 ≠ f
  valsNodup : (ptVals s.pageTable).Nodup
  framePid : ∀ e ∈ s.pageTable, (s.pages e.2).pageId = e.1
  keysNodup : (ptKeys s.pageTable).Nodup
  freeNodup : s.freeList.Nodup

/-! ## Association-list lemmas -/

theorem findA_insertA_self {α : Type} (l : List (Char × α)) (c : Char) (a : α) :
    findA (insertA l c a) c = some a := by
  induction l with
  | nil => simp [insertA, findA]
  | cons hd tl ih =>
    obtain ⟨c', a'⟩ := hd
    by_cases h : c' = c
    · subst h; simp [insertA, findA]
    · simp [insertA, findA, h, ih]

theorem findA_eraseA_self {α : Type} (l : List (Char × α)) (c : Char) :
    findA (eraseA l c) c = none := by
  induction l with
  | nil => simp [eraseA, findA]
  | cons hd tl ih =>
    obtain ⟨c', a'⟩ := hd
    by_cases h : c' = c
    · simp [eraseA, h, ih]
    · simp [eraseA, findA, h, ih]

/-! ## Trie theorems -/

theorem TrieNode.children_mk (cs : List (Char × TrieNode)) (v : Option TValue) :
    (TrieNode.mk cs v).children = cs := rfl

theorem TrieNode.value_mk (cs : List (Char × TrieNode)) (v : Option TValue) :
    (TrieNode.mk cs v).value = v := rfl

theorem getNode_cons (n : TrieNode) (c : Char) (rest : List Char) :
    getNode n (c :: rest)
      = match findA n.children c with
        | none => none
        | some ch => getNode ch rest := rfl

theorem Get_root_some (r : TrieNode) (τ : TTag) (key : List Char) :
    (Trie.mk (some r)).Get τ key
      = match getNode r key with
        | none => none
        | some n =>
          match n.value with
          | none => none
          | some tv => if h : tv.tag = τ then some (h ▸ tv.val) else none := rfl

theorem getNode_putGo (tv : TValue) :
    ∀ (key : List Char), key ≠ [] → ∀ (n : TrieNode),
      ∃ cs, getNode (putGo n key tv) key = some (.mk cs (some tv)) := by
  intro key
  induction key with
  | nil => intro h; exact absurd rfl h
  | cons c rest ih =>
    intro _ n
    obtain ⟨ncs, nv⟩ := n
    cases rest with
    | nil =>
      cases hf : findA ncs c with
      | none =>
        refine ⟨[], ?_⟩
        simp [putGo, TrieNode.children_mk, TrieNode.value_mk, hf, getNode,
          findA_insertA_self]
      | some ch =>
        refine ⟨ch.children, ?_⟩
        simp [putGo, TrieNode.children_mk, TrieNode.value_mk, hf, getNode,
          findA_insertA_self]
    | cons c2 r2 =>
      cases hf : findA ncs c with
      | none =>
        obtain ⟨cs, hcs⟩ := ih (by simp) (TrieNode.mk [] none)
        refine ⟨cs, ?_⟩
        have hput : putGo (TrieNode.mk ncs nv) (c :: c2 :: r2) tv
            = TrieNode.mk (insertA ncs c (putGo (TrieNode.mk [] none) (c2 :: r2) tv)) nv := by
          simp [putGo, TrieNode.children_mk, TrieNode.value_mk, hf]
        rw [hput, getNode_cons]
        simp only [TrieNode.children_mk, findA_insertA_self]
        exact hcs
      | some ch =>
        obtain ⟨cs, hcs⟩ := ih (by simp) ch
        refine ⟨cs, ?_⟩
        have hput : putGo (TrieNode.mk ncs nv) (c :: c2 :: r2) tv
            = TrieNode.mk (insertA ncs c (putGo ch (c2 :: r2) tv)) nv := by
          simp [putGo, TrieNode.children_mk, TrieNode.value_mk, hf]
        rw [hput, getNode_cons]
        simp only [TrieNode.children_mk, findA_insertA_self]
        exact hcs

theorem get_root_value (r : TrieNode) (key : List Char) (cs : List (Char × TrieNode))
    (τ : TTag) (v : TInterp τ)
    (hget : getNode r key = some (.mk cs (some ⟨τ, v⟩))) :
    (Trie.mk (some r)).Get τ key = some v := by
  show (match getNode r key with
        | none => none
        | some n =>
          match n.value with
          | none => none
          | some tv => if h : tv.tag = τ then some (h ▸ tv.val) else none)
      = some v
  rw [hget]
  cases τ <;> rfl

/-- C5: for every trie, every key (including the empty key) and every typed
value, `Get` at the same type directly after `Put` returns exactly the value
that was stored. -/
theorem c5_trie_roundtrip (t : Trie) (key : List Char) (τ : TTag) (v : TInterp τ) :
    (t.Put key ⟨τ, v⟩).Get τ key = some v := by
  obtain ⟨_ | r⟩ := t
  · cases key with
    | nil =>
      exact get_root_value _ [] [] τ v (by simp [getNode])
    | cons c rest =>
      obtain ⟨cs, hcs⟩ := getNode_putGo ⟨τ, v⟩ (c :: rest) (by simp) (TrieNode.mk [] none)
      exact get_root_value _ _ cs τ v hcs
  · cases key with
    | nil =>
      exact get_root_value _ [] r.children τ v (by simp [getNode])
    | cons c rest =>
      obtain ⟨cs, hcs⟩ := getNode_putGo ⟨τ, v⟩ (c :: rest) (by simp) r
      exact get_root_value _ _ cs τ v hcs

theorem dfs_value_none :
    ∀ (key : List Char) (root n' : TrieNode),
      dfs root key = some n' → (getNode n' key).bind TrieNode.value = none := by
  intro key
  induction key with
  | nil =>
    intro root n' h
    obtain ⟨rcs, rv⟩ := root
    cases rcs with
    | nil => simp [dfs, TrieNode.children_mk] at h
    | cons x xs =>
      simp [dfs, TrieNode.children_mk] at h
      subst h
      simp [getNode, TrieNode.value_mk]
  | cons c rest ih =>
    intro root n' h
    obtain ⟨rcs, rv⟩ := root
    cases hf : findA rcs c with
    | none =>
      simp [dfs, TrieNode.children_mk, hf] at h
      subst h
      simp [getNode, TrieNode.children_mk, hf]
    | some ch =>
      cases hd : dfs ch rest with
      | some nn =>
        simp [dfs, TrieNode.children_mk, TrieNode.value_mk, hf, hd] at h
        subst h
        rw [getNode_cons]
        simp only [TrieNode.children_mk, findA_insertA_self]
        exact ih ch nn hd
      | none =>
        cases rv with
        | none =>
          cases he : eraseA rcs c with
          | nil => simp [dfs, TrieNode.children_mk, TrieNode.value_mk, hf, hd, he] at h
          | cons y ys =>
            simp [dfs, TrieNode.children_mk, TrieNode.value_mk, hf, hd, he] at h
            subst h
            rw [← he]
            simp [getNode, TrieNode.children_mk, TrieNode.value_mk, findA_eraseA_self]
        | some tv =>
          cases he : eraseA rcs c with
          | nil =>
            simp [dfs, TrieNode.children_mk, TrieNode.value_mk, hf, hd, he] at h
            subst h
            simp [getNode, TrieNode.children_mk, TrieNode.value_mk, findA]
          | cons y ys =>
            simp [dfs, TrieNode.children_mk, TrieNode.value_mk, hf, hd, he] at h
            subst h
            rw [← he]
            simp [getNode, TrieNode.children_mk, TrieNode.value_mk, findA_eraseA_self]

theorem get_none_of_valueAt_none (t : Trie) (key : List Char) (τ : TTag)
    (h : valueAt t key = none) : t.Get τ key = none := by
  obtain ⟨_ | r⟩ := t
  · rfl
  · have h' : (getNode r key).bind TrieNode.value = none := h
    rw [Get_root_some]
    cases hg : getNode r key with
    | none => simp
    | some n =>
      rw [hg] at h'
      simp at h'
      simp [h']

theorem remove_root_some (t : Trie) (r : TrieNode) (key : List Char)
    (h : t.root = some r) : t.Remove key = .ok (Trie.mk (dfs r key)) := by
  obtain ⟨troot⟩ := t
  have h' : troot = some r := h
  subst h'
  rfl

/-- C6 counterexample: with `t0 = {}.Put("a", 1u32)`, `t1 = t0.Put("a", 2u32)`
and `t2 = t1.Remove("a")`, the removal prunes the whole branch, so
`t2.Get("a")` is absent while `t0.Get("a")` is `some 1`: the claimed equation
`t0.Get(k) = t2.Get(k)` fails whenever `t0` already binds the key. -/
theorem c6_trie_persistence_counterexample :
    ((((Trie.mk none).Put ['a'] ⟨.u32, 1⟩).Put ['a'] ⟨.u32, 2⟩).Remove ['a']
        = Except.ok (Trie.mk none))
    ∧ ((Trie.mk none).Put ['a'] ⟨.u32, 1⟩).Get .u32 ['a'] = some 1
    ∧ ¬ (((Trie.mk none).Put ['a'] ⟨.u32, 1⟩).Get .u32 ['a']
          = (Trie.mk none).Get .u32 ['a']) :=
  ⟨rfl, rfl, by decide⟩

/-- C6 (amended): put-then-remove of a key returns a trie that agrees with the
original at that key *provided the original held no value there*; and old
roots are never mutated (automatic here: `Put`/`Remove` are pure functions on
immutable nodes, so `t0` is unchanged by constructing `t1` and `t2`). -/
theorem c6_trie_persistence_amended (t0 : Trie) (key : List Char) (tv : TValue)
    (t2 : Trie) (h0 : valueAt t0 key = none)
    (h2 : (t0.Put key tv).Remove key = .ok t2) (τ : TTag) :
    t0.Get τ key = t2.Get τ key := by
  have hleft : t0.Get τ key = none := get_none_of_valueAt_none _ _ _ h0
  have hroot : ∃ r, (t0.Put key tv).root = some r := by
    obtain ⟨_ | r⟩ := t0 <;> cases key <;> exact ⟨_, rfl⟩
  obtain ⟨r, hr⟩ := hroot
  rw [remove_root_some _ r key hr] at h2
  have h2' : Trie.mk (dfs r key) = t2 := by
    simpa using h2
  have hright : t2.Get τ key = none := by
    rw [← h2']
    cases hd : dfs r key with
    | none => rfl
    | some n' =>
      apply get_none_of_valueAt_none
      have hv : (getNode n' key).bind TrieNode.value = none := dfs_value_none key r n' hd
      show (getNode n' key).bind TrieNode.value = none
      exact hv
  rw [hleft, hright]

theorem c6_trie_persistence_amended_witness :
    valueAt (Trie.mk none) ['a'] = none
    ∧ ((Trie.mk none).Put ['a'] ⟨.u32, 5⟩).Remove ['a'] = .ok (Trie.mk none)
    ∧ (Trie.mk none).Get .u32 ['a'] = (Trie.mk none).Get .u32 ['a'] :=
  ⟨rfl, rfl,
    c6_trie_persistence_amended (Trie.mk none) ['a'] ⟨.u32, 5⟩ (Trie.mk none) rfl rfl .u32⟩

/-- C7: the claim says `Remove` is total, including on the empty trie; but
`Trie::Remove` passes `root_` to `Dfs`, which dereferences it unconditionally,
so on a default-constructed trie (`root_ == nullptr`) the call is a null
dereference — undefined behavior — for every key.  The embedding surfaces that
as `Except.error`. -/
theorem c7_remove_empty_trie_null_deref :
    (Trie.mk none).Remove [] = Except.error ()
    ∧ (Trie.mk none).Remove ['a'] = Except.error () :=
  ⟨rfl, rfl⟩

/-! ## LRU-K replacer theorems -/

theorem findVictim_none (acc : Nat → Bool) :
    ∀ (l : List Nat), findVictim acc l = none ↔ ∀ w ∈ l, acc w = false := by
  intro l
  induction l with
  | nil => simp [findVictim]
  | cons x xs ih =>
    cases hfx : findVictim acc xs with
    | some v =>
      simp only [findVictim, hfx]
      constructor
      · intro h; cases h
      · intro h
        have : ∀ w ∈ xs, acc w = false := fun w hw => h w (List.mem_cons_of_mem _ hw)
        rw [ih.mpr this] at hfx
        cases hfx
    | none =>
      simp only [findVictim, hfx]
      constructor
      · intro h w hw
        rcases List.mem_cons.mp hw with rfl | hmem
        · by_cases hx : acc w
          · rw [if_pos hx] at h; cases h
          · simpa using hx
        · exact (ih.mp hfx) w hmem
      · intro h
        rw [if_neg (by simp [h x (List.mem_cons_self x xs)])]

theorem findVictim_decomp (acc : Nat → Bool) :
    ∀ (l : List Nat) (v : Nat), findVictim acc l = some v →
      acc v = true ∧ ∃ l₁ l₂, l = l₁ ++ v :: l₂ ∧ ∀ w ∈ l₂, acc w = false := by
  intro l
  induction l with
  | nil => intro v h; cases h
  | cons x xs ih =>
    intro v h
    cases hfx : findVictim acc xs with
    | some u =>
      rw [show findVictim acc (x :: xs)
          = match findVictim acc xs with
            | some v => some v
            | none => if acc x then some x else none from rfl, hfx] at h
      obtain rfl : u = v := by simpa using h
      obtain ⟨hacc, l₁, l₂, rfl, hw⟩ := ih u hfx
      exact ⟨hacc, x :: l₁, l₂, rfl, hw⟩
    | none =>
      rw [show findVictim acc (x :: xs)
          = match findVictim acc xs with
            | some v => some v
            | none => if acc x then some x else none from rfl, hfx] at h
      by_cases hx : acc x
      · rw [if_pos hx] at h
        obtain rfl : x = v := by simpa using h
        exact ⟨hx, [], xs, rfl, fun w hw => (findVictim_none acc xs).mp hfx w hw⟩
      · rw [if_neg hx] at h
        cases h

theorem erase_append_nodup (v : Nat) (l₁ l₂ : List Nat)
    (h : (l₁ ++ v :: l₂).Nodup) : (l₁ ++ v :: l₂).erase v = l₁ ++ l₂ := by
  have hv : v ∉ l₁ := by
    intro hmem
    rw [List.nodup_append] at h
    exact h.2.2 hmem (List.mem_cons_self v l₂)
  rw [List.erase_append_right _ hv, List.erase_cons_head]

/-- C3: `Evict` returns a victim iff an evictable frame exists (given the
well-formedness facts that hold in every reachable replacer state: the lists
have no duplicates and every evictable frame sits in one of them); the victim
is the evictable history entry closest to the back (earliest arrival, since
history entries are pushed at the front and never moved); only when the
history list has no evictable entry is the cache list scanned back-to-front
likewise; and on success the victim leaves its list, its `use_count` becomes
`0`, its evictable flag is cleared, and `curr_size` is decremented. -/
theorem c3_evict_spec (s : LRUKReplacer)
    (hh : s.historyList.Nodup) (hc : s.cacheList.Nodup)
    (hacc : ∀ f, s.isAccessible f = true → f ∈ s.historyList ∨ f ∈ s.cacheList) :
    (s.Evict.1.isSome ↔ ∃ f, s.isAccessible f = true)
    ∧ (∀ v, s.Evict.1 = some v →
        s.isAccessible v = true
        ∧ s.Evict.2.useCount v = 0
        ∧ s.Evict.2.isAccessible v = false
        ∧ s.Evict.2.currSize = s.currSize - 1
        ∧ ((∃ l₁ l₂, s.historyList = l₁ ++ v :: l₂
              ∧ (∀ w ∈ l₂, s.isAccessible w = false)
              ∧ s.Evict.2.historyList = l₁ ++ l₂
              ∧ s.Evict.2.cacheList = s.cacheList)
          ∨ ((∀ w ∈ s.historyList, s.isAccessible w = false)
              ∧ ∃ l₁ l₂, s.cacheList = l₁ ++ v :: l₂
                ∧ (∀ w ∈ l₂, s.isAccessible w = false)
                ∧ s.Evict.2.cacheList = l₁ ++ l₂
                ∧ s.Evict.2.historyList = s.historyList))) := by
  by_cases hemp : s.historyList = [] ∧ s.cacheList = []
  · have he : s.Evict = (none, s) := by
      unfold LRUKReplacer.Evict
      rw [if_pos hemp]
    rw [he]
    constructor
    · simp only [Option.isSome_none, Bool.false_eq_true, false_iff]
      rintro ⟨f, hf⟩
      rcases hacc f hf with h | h
      · rw [hemp.1] at h; cases h
      · rw [hemp.2] at h; cases h
    · intro v hv; cases hv
  · cases hf1 : findVictim s.isAccessible s.historyList with
    | some v =>
      obtain ⟨haccv, l₁, l₂, hdec, hl₂⟩ := findVictim_decomp _ _ _ hf1
      have he : s.Evict =
          (some v,
           { s with currSize := s.currSize - 1,
                    isAccessible := fun f => if f = v then false else s.isAccessible f,
                    useCount := fun f => if f = v then 0 else s.useCount f,
                    historyList := s.historyList.erase v }) := by
        unfold LRUKReplacer.Evict
        rw [if_neg hemp, hf1]
      rw [he]
      refine ⟨by simp only [Option.isSome_some, true_iff]; exact ⟨v, haccv⟩, ?_⟩
      intro u hu
      obtain rfl : v = u := by simpa using hu
      refine ⟨haccv, by simp, by simp, rfl, Or.inl ⟨l₁, l₂, hdec, hl₂, ?_, rfl⟩⟩
      show s.historyList.erase v = l₁ ++ l₂
      rw [hdec]
      exact erase_append_nodup v l₁ l₂ (hdec ▸ hh)
    | none =>
      have hhist : ∀ w ∈ s.historyList, s.isAccessible w = false :=
        (findVictim_none _ _).mp hf1
      cases hf2 : findVictim s.isAccessible s.cacheList with
      | some v =>
        obtain ⟨haccv, l₁, l₂, hdec, hl₂⟩ := findVictim_decomp _ _ _ hf2
        have he : s.Evict =
            (some v,
             { s with currSize := s.currSize - 1,
                      isAccessible := fun f => if f = v then false else s.isAccessible f,
                      useCount := fun f => if f = v then 0 else s.useCount f,
                      cacheList := s.cacheList.erase v }) := by
          unfold LRUKReplacer.Evict
          rw [if_neg hemp, hf1, hf2]
        rw [he]
        refine ⟨by simp only [Option.isSome_some, true_iff]; exact ⟨v, haccv⟩, ?_⟩
        intro u hu
        obtain rfl : v = u := by simpa using hu
        refine ⟨haccv, by simp, by simp, rfl,
          Or.inr ⟨hhist, l₁, l₂, hdec, hl₂, ?_, rfl⟩⟩
        show s.cacheList.erase v = l₁ ++ l₂
        rw [hdec]
        exact erase_append_nodup v l₁ l₂ (hdec ▸ hc)
      | none =>
        have hcache : ∀ w ∈ s.cacheList, s.isAccessible w = false :=
          (findVictim_none _ _).mp hf2
        have he : s.Evict = (none, s) := by
          unfold LRUKReplacer.Evict
          rw [if_neg hemp, hf1, hf2]
        rw [he]
        constructor
        · simp only [Option.isSome_none, Bool.false_eq_true, false_iff]
          rintro ⟨f, hf⟩
          rcases hacc f hf with h | h
          · rw [hhist f h] at hf; cases hf
          · rw [hcache f h] at hf; cases hf
        · intro v hv; cases hv

theorem c3_evict_spec_witness :
    replacerW.historyList.Nodup ∧ replacerW.cacheList.Nodup
    ∧ (∀ f, replacerW.isAccessible f = true →
        f ∈ replacerW.historyList ∨ f ∈ replacerW.cacheList)
    ∧ (replacerW.Evict.1.isSome ↔ ∃ f, replacerW.isAccessible f = true) := by
  have h3 : ∀ f, replacerW.isAccessible f = true →
      f ∈ replacerW.historyList ∨ f ∈ replacerW.cacheList := by
    intro f h
    have hf : f = 0 := of_decide_eq_true h
    subst hf
    left
    show (0 : Nat) ∈ [0]
    simp
  exact ⟨by decide, by decide, h3,
    (c3_evict_spec replacerW (by decide) (by decide) h3).1⟩

/-- C4: for an in-range frame id, `RecordAccess` increments `use_count`; while
the new count stays below `k` the frame sits in the history list, pushed at
the front only on its first access and never repositioned; when the new count
reaches `k` the frame moves from the history list to the front of the cache
list; above `k` it moves to the front of the cache list.  The hypothesis
`hmem` is the list-membership discipline that holds in every reachable
replacer state. -/
theorem c4_record_access_spec (s : LRUKReplacer) (f : Nat)
    (hf : f ≤ s.replacerSize)
    (hmem : f ∈ s.historyList ↔ (0 < s.useCount f ∧ s.useCount f < s.k)) :
    ∃ s', s.RecordAccess f = .ok s'
      ∧ s'.useCount f = s.useCount f + 1
      ∧ (∀ g, g ≠ f → s'.useCount g = s.useCount g)
      ∧ (s.useCount f + 1 < s.k →
          s'.historyList = (if s.useCount f = 0 then f :: s.historyList else s.historyList)
          ∧ s'.cacheList = s.cacheList)
      ∧ (s.useCount f + 1 = s.k →
          s'.historyList = s.historyList.erase f ∧ s'.cacheList = f :: s.cacheList)
      ∧ (s.k < s.useCount f + 1 →
          s'.cacheList = f :: s.cacheList.erase f ∧ s'.historyList = s.historyList) := by
  have hok : s.RecordAccess f = .ok (s.RecordAccessCore f) := by
    unfold LRUKReplacer.RecordAccess
    rw [if_neg (by omega)]
  refine ⟨s.RecordAccessCore f, hok, ?_, ?_, ?_, ?_, ?_⟩
  · dsimp only [LRUKReplacer.RecordAccessCore]
    split_ifs <;> simp
  · intro g hg
    dsimp only [LRUKReplacer.RecordAccessCore]
    split_ifs <;> simp [hg]
  · intro hlt
    dsimp only [LRUKReplacer.RecordAccessCore]
    rw [if_neg (by omega), if_neg (by omega)]
    by_cases hm : f ∈ s.historyList
    · rw [if_pos hm]
      have : s.useCount f ≠ 0 := by
        have := (hmem.mp hm).1
        omega
      rw [if_neg this]
      exact ⟨rfl, rfl⟩
    · rw [if_neg hm]
      have : s.useCount f = 0 := by
        by_contra hne
        exact hm (hmem.mpr ⟨by omega, by omega⟩)
      rw [if_pos this]
      exact ⟨rfl, rfl⟩
  · intro heq
    dsimp only [LRUKReplacer.RecordAccessCore]
    rw [if_pos heq]
    by_cases hm : f ∈ s.historyList
    · rw [if_pos hm]
      exact ⟨rfl, rfl⟩
    · rw [if_neg hm]
      rw [List.erase_of_not_mem hm]
      exact ⟨rfl, rfl⟩
  · intro hgt
    dsimp only [LRUKReplacer.RecordAccessCore]
    rw [if_neg (by omega), if_pos hgt]
    by_cases hm : f ∈ s.cacheList
    · rw [if_pos hm]
      exact ⟨rfl, rfl⟩
    · rw [if_neg hm]
      rw [List.erase_of_not_mem hm]
      exact ⟨rfl, rfl⟩

theorem c4_record_access_spec_witness :
    ((0 : Nat) ≤ replacerW.replacerSize
      ∧ ((0 : Nat) ∈ replacerW.historyList ↔
          (0 < replacerW.useCount 0 ∧ replacerW.useCount 0 < replacerW.k)))
    ∧ ∃ s', replacerW.RecordAccess 0 = .ok s'
        ∧ s'.useCount 0 = replacerW.useCount 0 + 1
        ∧ (∀ g, g ≠ 0 → s'.useCount g = replacerW.useCount g)
        ∧ (replacerW.useCount 0 + 1 < replacerW.k →
            s'.historyList
              = (if replacerW.useCount 0 = 0 then 0 :: replacerW.historyList
                 else replacerW.historyList)
            ∧ s'.cacheList = replacerW.cacheList)
        ∧ (replacerW.useCount 0 + 1 = replacerW.k →
            s'.historyList = replacerW.historyList.erase 0
            ∧ s'.cacheList = 0 :: replacerW.cacheList)
        ∧ (replacerW.k < replacerW.useCount 0 + 1 →
            s'.cacheList = 0 :: replacerW.cacheList.erase 0
            ∧ s'.historyList = replacerW.historyList) :=
  ⟨⟨by decide, by constructor <;> (intro h; decide)⟩,
    c4_record_access_spec replacerW 0 (by decide)
      (by constructor <;> (intro h; decide))⟩

/-- C8 counterexample: with `num_frames = 1` the frame id `1` satisfies
`frame_id ≥ num_frames`, yet `RecordAccess` does not fail — the source checks
`frame_id > replacer_size_` (strict) and sizes `is_accessible_` as
`num_frames + 1`, so the boundary id is accepted.  The claimed error
condition `frame_id ≥ num_frames` is therefore wrong at `frame_id =
num_frames`. -/
theorem c8_range_counterexample :
    (initReplacer 1 2).replacerSize ≤ 1
    ∧ exErr ((initReplacer 1 2).RecordAccess 1) = false
    ∧ exErr ((initReplacer 1 2).SetEvictable 1 true) = false
    ∧ exErr ((initReplacer 1 2).Remove 1) = false :=
  ⟨by decide, by decide, by decide, by decide⟩

/-- C8 (amended): `RecordAccess`, `SetEvictable` and `Remove` fail with the
out-of-range error exactly when `frame_id > num_frames`, and never fail for
`frame_id ≤ num_frames`. -/
theorem c8_range_amended (s : LRUKReplacer) (f : Nat) (b : Bool) :
    (exErr (s.RecordAccess f) = true ↔ s.replacerSize < f)
    ∧ (exErr (s.SetEvictable f b) = true ↔ s.replacerSize < f)
    ∧ (exErr (s.Remove f) = true ↔ s.replacerSize < f) := by
  by_cases h : s.replacerSize < f <;>
    simp [LRUKReplacer.RecordAccess, LRUKReplacer.SetEvictable, LRUKReplacer.Remove,
      exErr, h]

/-! ## Counting lemmas for the size law -/

theorem countP_eq_of_not_mem (f : Nat) (g : Nat → Bool) (b : Bool) :
    ∀ (xs : List Nat), f ∉ xs →
      (xs.countP fun x => if x = f then b else g x) = xs.countP g := by
  intro xs
  induction xs with
  | nil => intro _; rfl
  | cons y ys ih =>
    intro hnx
    rw [List.countP_cons, List.countP_cons, ih (fun h => hnx (List.mem_cons_of_mem _ h))]
    have hy : y ≠ f := fun h => hnx (h ▸ List.mem_cons_self y ys)
    rw [if_neg hy]

theorem countP_update_false (f : Nat) (g : Nat → Bool) (hg : g f = true) :
    ∀ (l : List Nat), l.Nodup → f ∈ l →
      (l.countP fun x => if x = f then false else g x) + 1 = l.countP g := by
  intro l
  induction l with
  | nil => intro _ hf; cases hf
  | cons x xs ih =>
    intro hl hf
    rw [List.countP_cons, List.countP_cons]
    rcases List.mem_cons.mp hf with rfl | hmem
    · have hnx : f ∉ xs := (List.nodup_cons.mp hl).1
      rw [countP_eq_of_not_mem f g false xs hnx]
      rw [if_pos rfl, hg]
      simp
    · have hx : x ≠ f := by
        rintro rfl
        exact (List.nodup_cons.mp hl).1 hmem
      rw [if_neg hx]
      have := ih (List.nodup_cons.mp hl).2 hmem
      omega

theorem countP_update_true (f : Nat) (g : Nat → Bool) (hg : g f = false) :
    ∀ (l : List Nat), l.Nodup → f ∈ l →
      (l.countP fun x => if x = f then true else g x) = l.countP g + 1 := by
  intro l
  induction l with
  | nil => intro _ hf; cases hf
  | cons x xs ih =>
    intro hl hf
    rw [List.countP_cons, List.countP_cons]
    rcases List.mem_cons.mp hf with rfl | hmem
    · have hnx : f ∉ xs := (List.nodup_cons.mp hl).1
      rw [countP_eq_of_not_mem f g true xs hnx]
      rw [if_pos rfl, hg]
      simp
    · have hx : x ≠ f := by
        rintro rfl
        exact (List.nodup_cons.mp hl).1 hmem
      rw [if_neg hx]
      have := ih (List.nodup_cons.mp hl).2 hmem
      omega

theorem countP_update_same (f : Nat) (g : Nat → Bool) (b : Bool) (hb : g f = b) :
    ∀ (l : List Nat), (l.countP fun x => if x = f then b else g x) = l.countP g := by
  intro l
  induction l with
  | nil => rfl
  | cons x xs ih =>
    rw [List.countP_cons, List.countP_cons, ih]
    by_cases hx : x = f
    · subst hx; rw [if_pos rfl, hb]
    · rw [if_neg hx]

/-! ## Field-preservation lemmas for the replacer operations -/

theorem RecordAccessCore_isAccessible (s : LRUKReplacer) (f : Nat) :
    (s.RecordAccessCore f).isAccessible = s.isAccessible := by
  dsimp only [LRUKReplacer.RecordAccessCore]
  split_ifs <;> rfl

theorem RecordAccessCore_currSize (s : LRUKReplacer) (f : Nat) :
    (s.RecordAccessCore f).currSize = s.currSize := by
  dsimp only [LRUKReplacer.RecordAccessCore]
  split_ifs <;> rfl

theorem RecordAccessCore_replacerSize (s : LRUKReplacer) (f : Nat) :
    (s.RecordAccessCore f).replacerSize = s.replacerSize := by
  dsimp only [LRUKReplacer.RecordAccessCore]
  split_ifs <;> rfl

theorem RecordAccessCore_useCount (s : LRUKReplacer) (f : Nat) :
    (s.RecordAccessCore f).useCount
      = fun x => if x = f then s.useCount f + 1 else s.useCount x := by
  dsimp only [LRUKReplacer.RecordAccessCore]
  split_ifs <;> rfl

theorem SetEvictableCore_of_zero (s : LRUKReplacer) (f : Nat) (b : Bool)
    (h : s.useCount f = 0) : s.SetEvictableCore f b = s := by
  dsimp only [LRUKReplacer.SetEvictableCore]
  rw [if_pos h]

theorem SetEvictableCore_isAccessible (s : LRUKReplacer) (f : Nat) (b : Bool)
    (h : s.useCount f ≠ 0) :
    (s.SetEvictableCore f b).isAccessible
      = fun x => if x = f then b else s.isAccessible x := by
  dsimp only [LRUKReplacer.SetEvictableCore]
  rw [if_neg h]

theorem SetEvictableCore_useCount (s : LRUKReplacer) (f : Nat) (b : Bool) :
    (s.SetEvictableCore f b).useCount = s.useCount := by
  dsimp only [LRUKReplacer.SetEvictableCore]
  split_ifs <;> rfl

theorem SetEvictableCore_replacerSize (s : LRUKReplacer) (f : Nat) (b : Bool) :
    (s.SetEvictableCore f b).replacerSize = s.replacerSize := by
  dsimp only [LRUKReplacer.SetEvictableCore]
  split_ifs <;> rfl

theorem SetEvictableCore_lists (s : LRUKReplacer) (f : Nat) (b : Bool) :
    (s.SetEvictableCore f b).historyList = s.historyList
    ∧ (s.SetEvictableCore f b).cacheList = s.cacheList := by
  dsimp only [LRUKReplacer.SetEvictableCore]
  split_ifs <;> exact ⟨rfl, rfl⟩

/-! ## The size-law invariant -/

theorem RInv_init (nf k : Nat) : RInv (initReplacer nf k) := by
  constructor
  · intro f h
    simp [initReplacer] at h
  · show (0 : Int) = (evictCount (initReplacer nf k) : Int)
    unfold evictCount
    simp [initReplacer]

/-- Clearing the flag of an accessible frame and decrementing the counter
preserves the size law. -/
theorem RInv_clear (s t : LRUKReplacer) (v : Nat)
    (hacc : s.isAccessible v = true)
    (hsize : t.replacerSize = s.replacerSize)
    (htacc : t.isAccessible = fun x => if x = v then false else s.isAccessible x)
    (htcs : t.currSize = s.currSize - 1)
    (h : RInv s) : RInv t := by
  obtain ⟨hb, hs⟩ := h
  have hvr : v ≤ s.replacerSize := hb v hacc
  constructor
  · intro x hx
    simp only [htacc] at hx
    by_cases hxv : x = v
    · rw [if_pos hxv] at hx; cases hx
    · rw [if_neg hxv] at hx; rw [hsize]; exact hb x hx
  · have hnew : evictCount t + 1 = evictCount s := by
      unfold evictCount
      rw [hsize, htacc]
      exact countP_update_false v s.isAccessible hacc _
        (List.nodup_range _) (List.mem_range.mpr (by omega))
    rw [htcs, hs]
    omega

/-- Setting the flag of a frame to the value it already has preserves the
size law. -/
theorem RInv_same (s t : LRUKReplacer) (v : Nat) (b : Bool)
    (hacc : s.isAccessible v = b) (hvr : v ≤ s.replacerSize)
    (hsize : t.replacerSize = s.replacerSize)
    (htacc : t.isAccessible = fun x => if x = v then b else s.isAccessible x)
    (htcs : t.currSize = s.currSize)
    (h : RInv s) : RInv t := by
  obtain ⟨hb, hs⟩ := h
  constructor
  · intro x hx
    simp only [htacc] at hx
    by_cases hxv : x = v
    · subst hxv; rw [hsize]; exact hvr
    · rw [if_neg hxv] at hx; rw [hsize]; exact hb x hx
  · have hsame : evictCount t = evictCount s := by
      unfold evictCount
      rw [hsize, htacc]
      exact countP_update_same v s.isAccessible b hacc _
    rw [htcs, hs, hsame]

/-- Setting the flag of a non-accessible in-range frame and incrementing the
counter preserves the size law. -/
theorem RInv_inc (s t : LRUKReplacer) (v : Nat)
    (hacc : s.isAccessible v = false) (hvr : v ≤ s.replacerSize)
    (hsize : t.replacerSize = s.replacerSize)
    (htacc : t.isAccessible = fun x => if x = v then true else s.isAccessible x)
    (htcs : t.currSize = s.currSize + 1)
    (h : RInv s) : RInv t := by
  obtain ⟨hb, hs⟩ := h
  constructor
  · intro x hx
    simp only [htacc] at hx
    by_cases hxv : x = v
    · subst hxv; rw [hsize]; exact hvr
    · rw [if_neg hxv] at hx; rw [hsize]; exact hb x hx
  · have hnew : evictCount t = evictCount s + 1 := by
      unfold evictCount
      rw [hsize, htacc]
      exact countP_update_true v s.isAccessible hacc _
        (List.nodup_range _) (List.mem_range.mpr (by omega))
    rw [htcs, hs, hnew]
    push_cast
    ring

theorem RInv_setE (s : LRUKReplacer) (f : Nat) (b : Bool)
    (hf : f ≤ s.replacerSize) (h : RInv s) : RInv (s.SetEvictableCore f b) := by
  by_cases h0 : s.useCount f = 0
  · rw [SetEvictableCore_of_zero s f b h0]; exact h
  · have hcore : s.SetEvictableCore f b =
        { s with
          currSize :=
            if s.isAccessible f = true ∧ b = false then s.currSize - 1
            else if s.isAccessible f = false ∧ b = true then s.currSize + 1
            else s.currSize,
          isAccessible := fun x => if x = f then b else s.isAccessible x } := by
      dsimp only [LRUKReplacer.SetEvictableCore]
      rw [if_neg h0]
    rw [hcore]
    cases b with
    | false =>
      cases ha : s.isAccessible f with
      | true => exact RInv_clear s _ f ha rfl rfl (by simp [ha]) h
      | false => exact RInv_same s _ f false ha hf rfl rfl (by simp [ha]) h
    | true =>
      cases ha : s.isAccessible f with
      | true => exact RInv_same s _ f true ha hf rfl rfl (by simp [ha]) h
      | false => exact RInv_inc s _ f ha hf rfl rfl (by simp [ha]) h

theorem RInv_record (s : LRUKReplacer) (f : Nat) (h : RInv s) :
    RInv (s.RecordAccessCore f) := by
  constructor
  · intro x hx
    rw [RecordAccessCore_isAccessible] at hx
    rw [RecordAccessCore_replacerSize]
    exact h.1 x hx
  · rw [RecordAccessCore_currSize]
    have hsame : evictCount (s.RecordAccessCore f) = evictCount s := by
      unfold evictCount
      rw [RecordAccessCore_replacerSize, RecordAccessCore_isAccessible]
    rw [hsame]
    exact h.2

theorem RInv_evict (s : LRUKReplacer) (h : RInv s) : RInv s.Evict.2 := by
  by_cases hemp : s.historyList = [] ∧ s.cacheList = []
  · have he : s.Evict = (none, s) := by
      unfold LRUKReplacer.Evict; rw [if_pos hemp]
    rw [he]; exact h
  · cases hf1 : findVictim s.isAccessible s.historyList with
    | some v =>
      have hacc := (findVictim_decomp _ _ _ hf1).1
      have he : s.Evict =
          (some v,
           { s with currSize := s.currSize - 1,
                    isAccessible := fun x => if x = v then false else s.isAccessible x,
                    useCount := fun x => if x = v then 0 else s.useCount x,
                    historyList := s.historyList.erase v }) := by
        unfold LRUKReplacer.Evict; rw [if_neg hemp, hf1]
      rw [he]
      exact RInv_clear s _ v hacc rfl rfl rfl h
    | none =>
      cases hf2 : findVictim s.isAccessible s.cacheList with
      | some v =>
        have hacc := (findVictim_decomp _ _ _ hf2).1
        have he : s.Evict =
            (some v,
             { s with currSize := s.currSize - 1,
                      isAccessible := fun x => if x = v then false else s.isAccessible x,
                      useCount := fun x => if x = v then 0 else s.useCount x,
                      cacheList := s.cacheList.erase v }) := by
          unfold LRUKReplacer.Evict; rw [if_neg hemp, hf1, hf2]
        rw [he]
        exact RInv_clear s _ v hacc rfl rfl rfl h
      | none =>
        have he : s.Evict = (none, s) := by
          unfold LRUKReplacer.Evict; rw [if_neg hemp, hf1, hf2]
        rw [he]; exact h

theorem RemoveCore_of_not_acc (s : LRUKReplacer) (f : Nat)
    (ha : s.isAccessible f = false) : s.RemoveCore f = s := by
  dsimp only [LRUKReplacer.RemoveCore]
  rw [if_pos ha]

theorem RemoveCore_eq_history (s : LRUKReplacer) (f : Nat)
    (ha : s.isAccessible f = true) (huk : s.useCount f < s.k) :
    s.RemoveCore f =
      { s with historyList := s.historyList.erase f,
               useCount := fun x => if x = f then 0 else s.useCount x,
               isAccessible := fun x => if x = f then false else s.isAccessible x,
               currSize := s.currSize - 1 } := by
  dsimp only [LRUKReplacer.RemoveCore]
  rw [if_neg (by simp [ha]), if_pos huk]

theorem RemoveCore_eq_cache (s : LRUKReplacer) (f : Nat)
    (ha : s.isAccessible f = true) (huk : ¬ s.useCount f < s.k) :
    s.RemoveCore f =
      { s with cacheList := s.cacheList.erase f,
               useCount := fun x => if x = f then 0 else s.useCount x,
               isAccessible := fun x => if x = f then false else s.isAccessible x,
               currSize := s.currSize - 1 } := by
  dsimp only [LRUKReplacer.RemoveCore]
  rw [if_neg (by simp [ha]), if_neg huk]

theorem RInv_remove (s : LRUKReplacer) (f : Nat) (h : RInv s) :
    RInv (s.RemoveCore f) := by
  cases ha : s.isAccessible f with
  | false => rw [RemoveCore_of_not_acc s f ha]; exact h
  | true =>
    by_cases huk : s.useCount f < s.k
    · rw [RemoveCore_eq_history s f ha huk]
      exact RInv_clear s _ f ha rfl rfl rfl h
    · rw [RemoveCore_eq_cache s f ha huk]
      exact RInv_clear s _ f ha rfl rfl rfl h

theorem applyR_record (s : LRUKReplacer) (f : Nat) :
    applyR s (.record f)
      = if s.replacerSize < f then s else s.RecordAccessCore f := by
  dsimp only [applyR, LRUKReplacer.RecordAccess]
  split_ifs <;> rfl

theorem applyR_setEvict (s : LRUKReplacer) (f : Nat) (b : Bool) :
    applyR s (.setEvict f b)
      = if s.replacerSize < f then s else s.SetEvictableCore f b := by
  dsimp only [applyR, LRUKReplacer.SetEvictable]
  split_ifs <;> rfl

theorem applyR_removeOp (s : LRUKReplacer) (f : Nat) :
    applyR s (.removeOp f)
      = if s.replacerSize < f then s else s.RemoveCore f := by
  dsimp only [applyR, LRUKReplacer.Remove]
  split_ifs <;> rfl

theorem RInv_applyR (s : LRUKReplacer) (op : ROp) (h : RInv s) :
    RInv (applyR s op) := by
  cases op with
  | record f =>
    rw [applyR_record]
    by_cases hf : s.replacerSize < f
    · rw [if_pos hf]; exact h
    · rw [if_neg hf]; exact RInv_record s f h
  | setEvict f b =>
    rw [applyR_setEvict]
    by_cases hf : s.replacerSize < f
    · rw [if_pos hf]; exact h
    · rw [if_neg hf]; exact RInv_setE s f b (by omega) h
  | evictOp => exact RInv_evict s h
  | removeOp f =>
    rw [applyR_removeOp]
    by_cases hf : s.replacerSize < f
    · rw [if_pos hf]; exact h
    · rw [if_neg hf]; exact RInv_remove s f h

theorem RInv_runR (ops : List ROp) : ∀ (s : LRUKReplacer), RInv s → RInv (runR s ops) := by
  induction ops with
  | nil => intro s h; exact h
  | cons op ops ih =>
    intro s h
    show RInv (runR (applyR s op) ops)
    exact ih _ (RInv_applyR s op h)

/-- C9: after any sequence of replacer operations starting from a fresh
replacer, `Size` (the value of `curr_size_`) equals the number of frames
whose evictable flag is true; `SetEvictable` is a no-op when the frame's
`use_count` is zero, and leaves `curr_size` unchanged when the flag does not
actually change; and `Evict` and `Remove` decrement `curr_size` exactly when
they clear a frame's evictable flag. -/
theorem c9_size_law (nf k : Nat) (ops : List ROp) :
    (runR (initReplacer nf k) ops).Size
        = (evictCount (runR (initReplacer nf k) ops) : Int)
    ∧ (∀ (s : LRUKReplacer) (f : Nat) (b : Bool),
        s.useCount f = 0 → s.SetEvictableCore f b = s)
    ∧ (∀ (s : LRUKReplacer) (f : Nat) (b : Bool),
        s.isAccessible f = b → (s.SetEvictableCore f b).currSize = s.currSize)
    ∧ (∀ (s : LRUKReplacer) (v : Nat), s.Evict.1 = some v →
        s.Evict.2.currSize = s.currSize - 1 ∧ s.Evict.2.isAccessible v = false)
    ∧ (∀ (s : LRUKReplacer) (f : Nat), s.isAccessible f = true →
        (s.RemoveCore f).currSize = s.currSize - 1
        ∧ (s.RemoveCore f).isAccessible f = false) := by
  refine ⟨(RInv_runR ops _ (RInv_init nf k)).2, SetEvictableCore_of_zero, ?_, ?_, ?_⟩
  · intro s f b hacc
    by_cases h0 : s.useCount f = 0
    · rw [SetEvictableCore_of_zero s f b h0]
    · dsimp only [LRUKReplacer.SetEvictableCore]
      rw [if_neg h0]
      cases b with
      | false => simp [hacc]
      | true => simp [hacc]
  · intro s v hv
    by_cases hemp : s.historyList = [] ∧ s.cacheList = []
    · have he : s.Evict = (none, s) := by
        unfold LRUKReplacer.Evict; rw [if_pos hemp]
      rw [he] at hv; cases hv
    · cases hf1 : findVictim s.isAccessible s.historyList with
      | some u =>
        have he : s.Evict =
            (some u,
             { s with currSize := s.currSize - 1,
                      isAccessible := fun x => if x = u then false else s.isAccessible x,
                      useCount := fun x => if x = u then 0 else s.useCount x,
                      historyList := s.historyList.erase u }) := by
          unfold LRUKReplacer.Evict; rw [if_neg hemp, hf1]
        rw [he] at hv ⊢
        obtain rfl : u = v := by simpa using hv
        exact ⟨rfl, by simp⟩
      | none =>
        cases hf2 : findVictim s.isAccessible s.cacheList with
        | some u =>
          have he : s.Evict =
              (some u,
               { s with currSize := s.currSize - 1,
                        isAccessible := fun x => if x = u then false else s.isAccessible x,
                        useCount := fun x => if x = u then 0 else s.useCount x,
                        cacheList := s.cacheList.erase u }) := by
            unfold LRUKReplacer.Evict; rw [if_neg hemp, hf1, hf2]
          rw [he] at hv ⊢
          obtain rfl : u = v := by simpa using hv
          exact ⟨rfl, by simp⟩
        | none =>
          have he : s.Evict = (none, s) := by
            unfold LRUKReplacer.Evict; rw [if_neg hemp, hf1, hf2]
          rw [he] at hv; cases hv
  · intro s f ha
    by_cases huk : s.useCount f < s.k
    · rw [RemoveCore_eq_history s f ha huk]
      exact ⟨rfl, by simp⟩
    · rw [RemoveCore_eq_cache s f ha huk]
      exact ⟨rfl, by simp⟩

theorem c9_size_law_witness :
    ((runR (initReplacer 2 2) [ROp.record 0, ROp.setEvict 0 true]).Size
        = (evictCount (runR (initReplacer 2 2) [ROp.record 0, ROp.setEvict 0 true]) : Int))
    ∧ ((initReplacer 2 2).useCount 1 = 0
        ∧ (initReplacer 2 2).SetEvictableCore 1 true = initReplacer 2 2)
    ∧ (replacerW.isAccessible 0 = true
        ∧ (replacerW.SetEvictableCore 0 true).currSize = replacerW.currSize)
    ∧ (replacerW.Evict.1 = some 0
        ∧ replacerW.Evict.2.currSize = replacerW.currSize - 1
        ∧ replacerW.Evict.2.isAccessible 0 = false)
    ∧ (replacerW.isAccessible 0 = true
        ∧ (replacerW.RemoveCore 0).currSize = replacerW.currSize - 1
        ∧ (replacerW.RemoveCore 0).isAccessible 0 = false) := by
  have hc := c9_size_law 2 2 [ROp.record 0, ROp.setEvict 0 true]
  have h4 := hc.2.2.2.1 replacerW 0 (by rfl)
  refine ⟨hc.1, ⟨rfl, hc.2.1 _ 1 true rfl⟩, ⟨rfl, hc.2.2.1 replacerW 0 true rfl⟩,
    ⟨rfl, h4.1, h4.2⟩, ?_⟩
  have h5 := hc.2.2.2.2 replacerW 0 (by rfl)
  exact ⟨rfl, h5.1, h5.2⟩

/-! ## Basic lemmas for the buffer-pool containers -/

theorem updFrame_self (p : Nat → Page) (i : Nat) (pg : Page) :
    updFrame p i pg i = pg := by
  unfold updFrame
  rw [if_pos rfl]

theorem updFrame_other (p : Nat → Page) (i j : Nat) (pg : Page) (h : j ≠ i) :
    updFrame p i pg j = p j := by
  unfold updFrame
  rw [if_neg h]

theorem updFrame_updFrame (p : Nat → Page) (i : Nat) (x y : Page) :
    updFrame (updFrame p i x) i y = updFrame p i y := by
  funext j
  unfold updFrame
  by_cases h : j = i
  · rw [if_pos h, if_pos h]
  · rw [if_neg h, if_neg h, if_neg h]

theorem popBack_decomp {α : Type} :
    ∀ (l : List α) (a : α) (r : List α), popBack l = some (a, r) → l = r ++ [a] := by
  intro l
  induction l with
  | nil => intro a r h; cases h
  | cons x xs ih =>
    intro a r h
    cases xs with
    | nil =>
      simp [popBack] at h
      obtain ⟨rfl, rfl⟩ := h
      rfl
    | cons y ys =>
      rw [show popBack (x :: y :: ys)
          = match popBack (y :: ys) with
            | some (a, r) => some (a, x :: r)
            | none => none from rfl] at h
      cases hp : popBack (y :: ys) with
      | none => rw [hp] at h; cases h
      | some p =>
        obtain ⟨b, rest⟩ := p
        rw [hp] at h
        simp at h
        obtain ⟨rfl, rfl⟩ := h
        rw [ih b rest hp]
        rfl

theorem popBack_none {α : Type} :
    ∀ (l : List α), popBack l = none ↔ l = [] := by
  intro l
  induction l with
  | nil => simp [popBack]
  | cons x xs ih =>
    cases xs with
    | nil => simp [popBack]
    | cons y ys =>
      rw [show popBack (x :: y :: ys)
          = match popBack (y :: ys) with
            | some (a, r) => some (a, x :: r)
            | none => none from rfl]
      cases hp : popBack (y :: ys) with
      | none => cases ih.mp hp
      | some p =>
        obtain ⟨a, r⟩ := p
        simp

theorem ptLookup_cons (q : Int) (g : Nat) (rest : List (Int × Nat)) (p : Int) :
    ptLookup ((q, g) :: rest) p = if q = p then some g else ptLookup rest p := rfl

theorem ptErase_cons (q : Int) (g : Nat) (rest : List (Int × Nat)) (p : Int) :
    ptErase ((q, g) :: rest) p
      = if q = p then ptErase rest p else (q, g) :: ptErase rest p := rfl

theorem ptLookup_mem : ∀ (t : List (Int × Nat)) (p : Int) (f : Nat),
    ptLookup t p = some f → (p, f) ∈ t := by
  intro t
  induction t with
  | nil => intro p f h; cases h
  | cons e rest ih =>
    intro p f h
    obtain ⟨q, g⟩ := e
    rw [ptLookup_cons] at h
    by_cases hq : q = p
    · rw [if_pos hq] at h
      obtain rfl : g = f := by simpa using h
      subst hq
      exact List.mem_cons_self _ _
    · rw [if_neg hq] at h
      exact List.mem_cons_of_mem _ (ih p f h)

theorem mem_ptErase : ∀ (t : List (Int × Nat)) (p : Int) (e : Int × Nat),
    e ∈ ptErase t p ↔ e ∈ t ∧ e.1 ≠ p := by
  intro t
  induction t with
  | nil => intro p e; simp [ptErase]
  | cons x rest ih =>
    intro p e
    obtain ⟨q, g⟩ := x
    rw [ptErase_cons]
    by_cases hq : q = p
    · rw [if_pos hq]
      rw [ih]
      subst hq
      constructor
      · rintro ⟨he, hne⟩
        exact ⟨List.mem_cons_of_mem _ he, hne⟩
      · rintro ⟨he, hne⟩
        rcases List.mem_cons.mp he with rfl | hmem
        · exact absurd rfl hne
        · exact ⟨hmem, hne⟩
    · rw [if_neg hq]
      constructor
      · intro he
        rcases List.mem_cons.mp he with rfl | hmem
        · exact ⟨List.mem_cons_self _ _, hq⟩
        · obtain ⟨h1, h2⟩ := (ih p e).mp hmem
          exact ⟨List.mem_cons_of_mem _ h1, h2⟩
      · rintro ⟨he, hne⟩
        rcases List.mem_cons.mp he with rfl | hmem
        · exact List.mem_cons_self _ _
        · exact List.mem_cons_of_mem _ ((ih p e).mpr ⟨hmem, hne⟩)

theorem ptErase_sublist : ∀ (t : List (Int × Nat)) (p : Int),
    List.Sublist (ptErase t p) t := by
  intro t
  induction t with
  | nil => intro p; exact List.Sublist.refl _
  | cons x rest ih =>
    intro p
    obtain ⟨q, g⟩ := x
    rw [ptErase_cons]
    by_cases hq : q = p
    · rw [if_pos hq]
      exact (ih p).trans (List.sublist_cons_self _ _)
    · rw [if_neg hq]
      exact (ih p).cons₂ _

theorem ptLookup_ptErase_self (t : List (Int × Nat)) (p : Int) :
    ptLookup (ptErase t p) p = none := by
  induction t with
  | nil => rfl
  | cons x rest ih =>
    obtain ⟨q, g⟩ := x
    rw [ptErase_cons]
    by_cases hq : q = p
    · rw [if_pos hq]
      exact ih
    · rw [if_neg hq, ptLookup_cons, if_neg hq]
      exact ih

theorem ptLookup_ptErase_ne (t : List (Int × Nat)) (p q : Int) (h : p ≠ q) :
    ptLookup (ptErase t q) p = ptLookup t p := by
  induction t with
  | nil => rfl
  | cons x rest ih =>
    obtain ⟨w, g⟩ := x
    rw [ptErase_cons, ptLookup_cons]
    by_cases hw : w = q
    · rw [if_pos hw]
      have hwp : ¬ w = p := fun hh => h ((hh ▸ hw).symm ▸ rfl)
      rw [if_neg hwp]
      exact ih
    · rw [if_neg hw, ptLookup_cons]
      by_cases hwp : w = p
      · rw [if_pos hwp, if_pos hwp]
      · rw [if_neg hwp, if_neg hwp]
        exact ih

theorem ptLookup_ptInsert_self (t : List (Int × Nat)) (p : Int) (f : Nat) :
    ptLookup (ptInsert t p f) p = some f := by
  unfold ptInsert
  rw [ptLookup_cons, if_pos rfl]

theorem ptLookup_ptInsert_ne (t : List (Int × Nat)) (p q : Int) (f : Nat) (h : q ≠ p) :
    ptLookup (ptInsert t p f) q = ptLookup t q := by
  unfold ptInsert
  rw [ptLookup_cons, if_neg (fun hh => h hh.symm)]
  exact ptLookup_ptErase_ne t q p h

theorem mem_ptInsert (t : List (Int × Nat)) (p : Int) (f : Nat) (e : Int × Nat) :
    e ∈ ptInsert t p f ↔ e = (p, f) ∨ (e ∈ t ∧ e.1 ≠ p) := by
  unfold ptInsert
  rw [List.mem_cons, mem_ptErase]

/-! ## Accessibility facts about the replacer operations, as used by the pool -/

theorem Evict_none (s : LRUKReplacer) (h : s.Evict.1 = none) : s.Evict.2 = s := by
  by_cases hemp : s.historyList = [] ∧ s.cacheList = []
  · have he : s.Evict = (none, s) := by
      unfold LRUKReplacer.Evict; rw [if_pos hemp]
    rw [he]
  · cases hf1 : findVictim s.isAccessible s.historyList with
    | some v =>
      have he : s.Evict.1 = some v := by
        unfold LRUKReplacer.Evict; rw [if_neg hemp, hf1]
      rw [he] at h; cases h
    | none =>
      cases hf2 : findVictim s.isAccessible s.cacheList with
      | some v =>
        have he : s.Evict.1 = some v := by
          unfold LRUKReplacer.Evict; rw [if_neg hemp, hf1, hf2]
        rw [he] at h; cases h
      | none =>
        have he : s.Evict = (none, s) := by
          unfold LRUKReplacer.Evict; rw [if_neg hemp, hf1, hf2]
        rw [he]

theorem Evict_some_facts (s : LRUKReplacer) (v : Nat) (h : s.Evict.1 = some v) :
    s.isAccessible v = true
    ∧ s.Evict.2.isAccessible = fun x => if x = v then false else s.isAccessible x := by
  by_cases hemp : s.historyList = [] ∧ s.cacheList = []
  · have he : s.Evict = (none, s) := by
      unfold LRUKReplacer.Evict; rw [if_pos hemp]
    rw [he] at h; cases h
  · cases hf1 : findVictim s.isAccessible s.historyList with
    | some u =>
      have he : s.Evict =
          (some u,
           { s with currSize := s.currSize - 1,
                    isAccessible := fun x => if x = u then false else s.isAccessible x,
                    useCount := fun x => if x = u then 0 else s.useCount x,
                    historyList := s.historyList.erase u }) := by
        unfold LRUKReplacer.Evict; rw [if_neg hemp, hf1]
      rw [he] at h ⊢
      obtain rfl : u = v := by simpa using h
      exact ⟨(findVictim_decomp _ _ _ hf1).1, rfl⟩
    | none =>
      cases hf2 : findVictim s.isAccessible s.cacheList with
      | some u =>
        have he : s.Evict =
            (some u,
             { s with currSize := s.currSize - 1,
                      isAccessible := fun x => if x = u then false else s.isAccessible x,
                      useCount := fun x => if x = u then 0 else s.useCount x,
                      cacheList := s.cacheList.erase u }) := by
          unfold LRUKReplacer.Evict; rw [if_neg hemp, hf1, hf2]
        rw [he] at h ⊢
        obtain rfl : u = v := by simpa using h
        exact ⟨(findVictim_decomp _ _ _ hf2).1, rfl⟩
      | none =>
        have he : s.Evict = (none, s) := by
          unfold LRUKReplacer.Evict; rw [if_neg hemp, hf1, hf2]
        rw [he] at h; cases h

/-- Composition fact: `RecordAccess` followed by `SetEvictable f false` (the `NewPage` and
`FetchPage`-hit order): the flag of `f` ends up cleared, all others keep
their value. -/
theorem recordSetE_isAccessible (s : LRUKReplacer) (f : Nat) :
    ((s.RecordAccessCore f).SetEvictableCore f false).isAccessible
      = fun x => if x = f then false else s.isAccessible x := by
  have h0 : (s.RecordAccessCore f).useCount f ≠ 0 := by
    rw [RecordAccessCore_useCount]
    simp
  rw [SetEvictableCore_isAccessible _ _ _ h0, RecordAccessCore_isAccessible]

/-- Composition fact: `SetEvictable f false` followed by `RecordAccess` (the `FetchPage`-miss
order): when the flag of `f` is already clear, all flags are unchanged. -/
theorem setERecord_isAccessible_of_false (s : LRUKReplacer) (f : Nat)
    (h : s.isAccessible f = false) :
    ((s.SetEvictableCore f false).RecordAccessCore f).isAccessible
      = s.isAccessible := by
  rw [RecordAccessCore_isAccessible]
  by_cases h0 : s.useCount f = 0
  · rw [SetEvictableCore_of_zero _ _ _ h0]
  · rw [SetEvictableCore_isAccessible _ _ _ h0]
    funext x
    by_cases hx : x = f
    · subst hx; rw [if_pos rfl, h]
    · rw [if_neg hx]

theorem SetEvictableCore_isAccessible_true (s : LRUKReplacer) (f : Nat) :
    ∀ x, (s.SetEvictableCore f true).isAccessible x
      = if x = f ∧ s.useCount f ≠ 0 then true else s.isAccessible x := by
  intro x
  by_cases h0 : s.useCount f = 0
  · rw [SetEvictableCore_of_zero _ _ _ h0, if_neg (by simp [h0])]
  · simp only [SetEvictableCore_isAccessible _ _ _ h0]
    by_cases hx : x = f
    · rw [if_pos hx, if_pos ⟨hx, h0⟩]
    · rw [if_neg hx, if_neg (by simp [hx])]

theorem RemoveCore_isAccessible (s : LRUKReplacer) (f : Nat) :
    (s.RemoveCore f).isAccessible
      = fun x => if x = f then false else s.isAccessible x := by
  cases ha : s.isAccessible f with
  | false =>
    rw [RemoveCore_of_not_acc s f ha]
    funext x
    by_cases hx : x = f
    · subst hx; rw [if_pos rfl, ha]
    · rw [if_neg hx]
  | true =>
    by_cases huk : s.useCount f < s.k
    · rw [RemoveCore_eq_history s f ha huk]
    · rw [RemoveCore_eq_cache s f ha huk]

/-! ## Branch equations for the buffer-pool operations -/

theorem NewPage_free_eq (s : BufferPoolManager) (fid : Nat) (rest : List Nat)
    (hpop : popBack s.freeList = some (fid, rest)) :
    s.NewPage =
      (some (s.nextPageId, fid),
       { poolSize := s.poolSize,
         pages := updFrame s.pages fid
           { pageId := s.nextPageId, pinCount := 1, isDirty := false, data := 0 },
         pageTable := ptInsert s.pageTable s.nextPageId fid,
         freeList := rest,
         replacer := (s.replacer.RecordAccessCore fid).SetEvictableCore fid false,
         nextPageId := s.nextPageId + 1,
         disk := s.disk },
       []) := by
  unfold BufferPoolManager.NewPage
  dsimp only
  rw [hpop]

theorem NewPage_evict_eq (s : BufferPoolManager) (fid : Nat)
    (hpop : popBack s.freeList = none) (hev : s.replacer.Evict.1 = some fid) :
    s.NewPage =
      (some (s.nextPageId, fid),
       { poolSize := s.poolSize,
         pages := updFrame s.pages fid
           { pageId := s.nextPageId, pinCount := 1, isDirty := false, data := 0 },
         pageTable := ptInsert (ptErase s.pageTable (s.pages fid).pageId) s.nextPageId fid,
         freeList := s.freeList,
         replacer := (s.replacer.Evict.2.RecordAccessCore fid).SetEvictableCore fid false,
         nextPageId := s.nextPageId + 1,
         disk := if (s.pages fid).isDirty
           then diskWrite s.disk (s.pages fid).pageId (s.pages fid).data
           else s.disk },
       if (s.pages fid).isDirty
         then [DiskOp.write (s.pages fid).pageId (s.pages fid).data]
         else []) := by
  have hpair : s.replacer.Evict = (some fid, s.replacer.Evict.2) := by
    rw [← hev]
  unfold BufferPoolManager.NewPage
  dsimp only
  rw [hpop, hpair]
  dsimp only
  by_cases hd : (s.pages fid).isDirty
  · simp only [if_pos hd]
    rw [updFrame_updFrame]
  · simp only [if_neg hd]

theorem NewPage_fail_eq (s : BufferPoolManager)
    (hpop : popBack s.freeList = none) (hev : s.replacer.Evict.1 = none) :
    s.NewPage = (none, { s with nextPageId := s.nextPageId + 1 }, []) := by
  have hpair : s.replacer.Evict = (none, s.replacer) := by
    rw [Prod.ext_iff]
    exact ⟨hev, Evict_none s.replacer hev⟩
  unfold BufferPoolManager.NewPage
  dsimp only
  rw [hpop, hpair]

theorem FetchPage_hit_eq (s : BufferPoolManager) (pid : Int) (fid : Nat)
    (hl : ptLookup s.pageTable pid = some fid) :
    s.FetchPage pid =
      (some fid,
       { s with
         pages := updFrame s.pages fid
           { s.pages fid with pinCount := (s.pages fid).pinCount + 1 },
         replacer := (s.replacer.RecordAccessCore fid).SetEvictableCore fid false },
       []) := by
  unfold BufferPoolManager.FetchPage
  dsimp only
  rw [hl]

theorem FetchPage_free_eq (s : BufferPoolManager) (pid : Int) (fid : Nat)
    (rest : List Nat)
    (hl : ptLookup s.pageTable pid = none)
    (hpop : popBack s.freeList = some (fid, rest)) :
    s.FetchPage pid =
      (some fid,
       { s with
         pageTable := ptInsert s.pageTable pid fid,
         pages := updFrame s.pages fid
           { pageId := pid, pinCount := 1, isDirty := false, data := s.disk pid },
         freeList := rest,
         replacer := (s.replacer.SetEvictableCore fid false).RecordAccessCore fid },
       [DiskOp.read pid]) := by
  unfold BufferPoolManager.FetchPage
  dsimp only
  rw [hl, hpop]

theorem FetchPage_evict_eq (s : BufferPoolManager) (pid : Int) (fid : Nat)
    (hl : ptLookup s.pageTable pid = none)
    (hpop : popBack s.freeList = none)
    (hev : s.replacer.Evict.1 = some fid) :
    s.FetchPage pid =
      (some fid,
       { poolSize := s.poolSize,
         pages := updFrame s.pages fid
           { pageId := pid, pinCount := 1, isDirty := false,
             data := (if (s.pages fid).isDirty
               then diskWrite s.disk (s.pages fid).pageId (s.pages fid).data
               else s.disk) pid },
         pageTable := ptInsert (ptErase s.pageTable (s.pages fid).pageId) pid fid,
         freeList := s.freeList,
         replacer := (s.replacer.Evict.2.SetEvictableCore fid false).RecordAccessCore fid,
         nextPageId := s.nextPageId,
         disk := if (s.pages fid).isDirty
           then diskWrite s.disk (s.pages fid).pageId (s.pages fid).data
           else s.disk },
       (if (s.pages fid).isDirty
         then [DiskOp.write (s.pages fid).pageId (s.pages fid).data]
         else []) ++ [DiskOp.read pid]) := by
  have hpair : s.replacer.Evict = (some fid, s.replacer.Evict.2) := by
    rw [← hev]
  unfold BufferPoolManager.FetchPage
  dsimp only
  rw [hl, hpop, hpair]
  dsimp only
  by_cases hd : (s.pages fid).isDirty
  · simp only [if_pos hd]
    rw [updFrame_updFrame]
  · simp only [if_neg hd]

theorem FetchPage_fail_eq (s : BufferPoolManager) (pid : Int)
    (hl : ptLookup s.pageTable pid = none)
    (hpop : popBack s.freeList = none)
    (hev : s.replacer.Evict.1 = none) :
    s.FetchPage pid = (none, s, []) := by
  have hpair : s.replacer.Evict = (none, s.replacer) := by
    rw [Prod.ext_iff]
    exact ⟨hev, Evict_none s.replacer hev⟩
  unfold BufferPoolManager.FetchPage
  dsimp only
  rw [hl, hpop, hpair]

theorem UnpinPage_none_eq (s : BufferPoolManager) (pid : Int) (d : Bool)
    (hl : ptLookup s.pageTable pid = none) :
    s.UnpinPage pid d = (false, s, []) := by
  unfold BufferPoolManager.UnpinPage
  dsimp only
  rw [hl]

theorem UnpinPage_zero_eq (s : BufferPoolManager) (pid : Int) (d : Bool) (fid : Nat)
    (hl : ptLookup s.pageTable pid = some fid)
    (hp : (s.pages fid).pinCount = 0) :
    s.UnpinPage pid d = (false, s, []) := by
  unfold BufferPoolManager.UnpinPage
  dsimp only
  rw [hl]
  dsimp only
  rw [if_pos hp]

theorem UnpinPage_dec_eq (s : BufferPoolManager) (pid : Int) (d : Bool) (fid : Nat)
    (hl : ptLookup s.pageTable pid = some fid)
    (hp : (s.pages fid).pinCount ≠ 0) :
    s.UnpinPage pid d =
      (true,
       (let fr1 : Page :=
          { s.pages fid with
            isDirty := (s.pages fid).isDirty || d,
            pinCount := (s.pages fid).pinCount - 1 }
        let s1 : BufferPoolManager := { s with pages := updFrame s.pages fid fr1 }
        if (s.pages fid).pinCount - 1 = 0
          then { s1 with replacer := s1.replacer.SetEvictableCore fid true }
          else s1),
       []) := by
  unfold BufferPoolManager.UnpinPage
  dsimp only
  rw [hl]
  dsimp only
  rw [if_neg hp]

theorem FlushPage_invalid_eq (s : BufferPoolManager) :
    s.FlushPage INVALID_PAGE_ID = (false, s, []) := by
  unfold BufferPoolManager.FlushPage
  rw [if_pos rfl]

theorem FlushPage_none_eq (s : BufferPoolManager) (pid : Int)
    (hpid : pid ≠ INVALID_PAGE_ID)
    (hl : ptLookup s.pageTable pid = none) :
    s.FlushPage pid = (false, s, []) := by
  unfold BufferPoolManager.FlushPage
  rw [if_neg hpid]
  dsimp only
  rw [hl]

theorem FlushPage_some_eq (s : BufferPoolManager) (pid : Int) (fid : Nat)
    (hpid : pid ≠ INVALID_PAGE_ID)
    (hl : ptLookup s.pageTable pid = some fid) :
    s.FlushPage pid =
      (true,
       { s with
         disk := diskWrite s.disk (s.pages fid).pageId (s.pages fid).data,
         pages := updFrame s.pages fid { s.pages fid with isDirty := false } },
       [DiskOp.write (s.pages fid).pageId (s.pages fid).data]) := by
  unfold BufferPoolManager.FlushPage
  rw [if_neg hpid]
  dsimp only
  rw [hl]

theorem DeletePage_none_eq (s : BufferPoolManager) (pid : Int)
    (hl : ptLookup s.pageTable pid = none) :
    s.DeletePage pid = (true, s, []) := by
  unfold BufferPoolManager.DeletePage
  dsimp only
  rw [hl]

theorem DeletePage_pinned_eq (s : BufferPoolManager) (pid : Int) (fid : Nat)
    (hl : ptLookup s.pageTable pid = some fid)
    (hp : (s.pages fid).pinCount ≠ 0) :
    s.DeletePage pid = (false, s, []) := by
  unfold BufferPoolManager.DeletePage
  dsimp only
  rw [hl]
  dsimp only
  rw [if_pos hp]

theorem DeletePage_go_eq (s : BufferPoolManager) (pid : Int) (fid : Nat)
    (hl : ptLookup s.pageTable pid = some fid)
    (hp : ¬ (s.pages fid).pinCount ≠ 0) :
    s.DeletePage pid =
      (true,
       { poolSize := s.poolSize,
         pages := updFrame s.pages fid
           { pageId := INVALID_PAGE_ID, pinCount := (s.pages fid).pinCount,
             isDirty := false, data := 0 },
         pageTable := ptErase s.pageTable pid,
         freeList := s.freeList ++ [fid],
         replacer := s.replacer.RemoveCore fid,
         nextPageId := s.nextPageId,
         disk := if (s.pages fid).isDirty
           then diskWrite s.disk (s.pages fid).pageId (s.pages fid).data
           else s.disk },
       (if (s.pages fid).isDirty
         then [DiskOp.write (s.pages fid).pageId (s.pages fid).data]
         else []) ++ [DiskOp.dealloc pid]) := by
  unfold BufferPoolManager.DeletePage
  dsimp only
  rw [hl]
  dsimp only
  rw [if_neg hp]
  by_cases hd : (s.pages fid).isDirty
  · simp only [if_pos hd]
    rw [updFrame_self, updFrame_updFrame]
  · simp only [if_neg hd]

/-! ## The system invariant of the buffer pool -/

theorem ptVals_ptInsert (t : List (Int × Nat)) (p : Int) (f : Nat) :
    ptVals (ptInsert t p f) = f :: ptVals (ptErase t p) := rfl

theorem ptKeys_ptInsert (t : List (Int × Nat)) (p : Int) (f : Nat) :
    ptKeys (ptInsert t p f) = p :: ptKeys (ptErase t p) := rfl

theorem ptVals_erase_sublist (t : List (Int × Nat)) (p : Int) :
    List.Sublist (ptVals (ptErase t p)) (ptVals t) :=
  (ptErase_sublist t p).map Prod.snd

theorem ptKeys_erase_sublist (t : List (Int × Nat)) (p : Int) :
    List.Sublist (ptKeys (ptErase t p)) (ptKeys t) :=
  (ptErase_sublist t p).map Prod.fst

theorem vals_inj (t : List (Int × Nat)) (hv : (ptVals t).Nodup)
    (e1 e2 : Int × Nat) (h1 : e1 ∈ t) (h2 : e2 ∈ t) (heq : e1.2 = e2.2) :
    e1 = e2 :=
  List.inj_on_of_nodup_map hv h1 h2 heq

/-- After erasing the key recorded in the victim frame's metadata, no
remaining page-table entry maps to the victim frame (frame metadata and page
table agree on every entry). -/
theorem no_val_after_erase (s : BufferPoolManager) (hinv : SysInv s) (fid : Nat) :
    ∀ e ∈ ptErase s.pageTable (s.pages fid).pageId, e.2 ≠ fid := by
  intro e he hval
  obtain ⟨hmem, hne⟩ := (mem_ptErase _ _ _).mp he
  have hfp := hinv.framePid e hmem
  rw [hval] at hfp
  exact hne hfp.symm

theorem SysInv_init (ps k : Nat) (d : Int → Nat) : SysInv (initBPM ps k d) := by
  constructor
  · intro f hf
    simp [initBPM, initReplacer] at hf
  · intro f _
    rfl
  · intro f _ e he
    cases he
  · exact List.nodup_nil
  · intro e he
    cases he
  · exact List.nodup_nil
  · exact List.nodup_range ps

theorem SysInv_NewPage (s : BufferPoolManager) (hinv : SysInv s) :
    SysInv s.NewPage.2.1 := by
  cases hpop : popBack s.freeList with
  | some pr =>
    obtain ⟨fid, rest⟩ := pr
    rw [NewPage_free_eq s fid rest hpop]
    have hdec := popBack_decomp _ _ _ hpop
    have hfmem : fid ∈ s.freeList := by
      rw [hdec]; exact List.mem_append_right _ (List.mem_cons_self _ _)
    have hrest_sub : ∀ x ∈ rest, x ∈ s.freeList := by
      intro x hx; rw [hdec]; exact List.mem_append_left _ hx
    have hnodup := hinv.freeNodup
    rw [hdec, List.nodup_append] at hnodup
    have hfid_rest : fid ∉ rest := fun hx => hnodup.2.2 hx (List.mem_cons_self _ _)
    constructor
    · intro f hf
      simp only [recordSetE_isAccessible] at hf
      by_cases hffid : f = fid
      · rw [if_pos hffid] at hf; cases hf
      · rw [if_neg hffid] at hf
        show (updFrame s.pages fid _ f).pinCount = 0
        rw [updFrame_other _ _ _ _ hffid]
        exact hinv.pinAcc f hf
    · intro f hf
      simp only [recordSetE_isAccessible]
      have hffid : f ≠ fid := fun h => hfid_rest (h ▸ hf)
      rw [if_neg hffid]
      exact hinv.freeAcc f (hrest_sub f hf)
    · intro f hf e he
      rcases (mem_ptInsert _ _ _ _).mp he with rfl | ⟨hmem, _⟩
      · show fid ≠ f
        exact fun h => hfid_rest (h ▸ hf)
      · exact hinv.freeNotVal f (hrest_sub f hf) e hmem
    · rw [ptVals_ptInsert]
      refine List.nodup_cons.mpr ⟨?_, hinv.valsNodup.sublist (ptVals_erase_sublist _ _)⟩
      intro hv
      obtain ⟨e, he, heq⟩ := List.mem_map.mp hv
      obtain ⟨hmem, _⟩ := (mem_ptErase _ _ _).mp he
      exact hinv.freeNotVal fid hfmem e hmem heq
    · intro e he
      rcases (mem_ptInsert _ _ _ _).mp he with rfl | ⟨hmem, hne⟩
      · show (updFrame s.pages fid _ fid).pageId = s.nextPageId
        rw [updFrame_self]
      · have hvfid : e.2 ≠ fid := hinv.freeNotVal fid hfmem e hmem
        show (updFrame s.pages fid _ e.2).pageId = e.1
        rw [updFrame_other _ _ _ _ hvfid]
        exact hinv.framePid e hmem
    · rw [ptKeys_ptInsert]
      refine List.nodup_cons.mpr ⟨?_, hinv.keysNodup.sublist (ptKeys_erase_sublist _ _)⟩
      intro hk
      obtain ⟨e, he, heq⟩ := List.mem_map.mp hk
      obtain ⟨_, hne⟩ := (mem_ptErase _ _ _).mp he
      exact hne heq
    · exact hnodup.1
  | none =>
    cases hev : s.replacer.Evict.1 with
    | none =>
      rw [NewPage_fail_eq s hpop hev]
      exact ⟨hinv.pinAcc, hinv.freeAcc, hinv.freeNotVal, hinv.valsNodup,
        hinv.framePid, hinv.keysNodup, hinv.freeNodup⟩
    | some fid =>
      rw [NewPage_evict_eq s fid hpop hev]
      obtain ⟨haccfid, hredacc⟩ := Evict_some_facts s.replacer fid hev
      have hfree_empty : s.freeList = [] := (popBack_none _).mp hpop
      have hacc_all : ∀ x,
          ((s.replacer.Evict.2.RecordAccessCore fid).SetEvictableCore fid false).isAccessible x
            = if x = fid then false else s.replacer.isAccessible x := by
        intro x
        simp only [recordSetE_isAccessible, hredacc]
        by_cases hx : x = fid
        · simp [hx]
        · simp [hx]
      have hnoval := no_val_after_erase s hinv fid
      constructor
      · intro f hf
        simp only [hacc_all] at hf
        by_cases hffid : f = fid
        · rw [if_pos hffid] at hf; cases hf
        · rw [if_neg hffid] at hf
          show (updFrame s.pages fid _ f).pinCount = 0
          rw [updFrame_other _ _ _ _ hffid]
          exact hinv.pinAcc f hf
      · intro f hf
        rw [hfree_empty] at hf
        cases hf
      · intro f hf
        rw [hfree_empty] at hf
        cases hf
      · rw [ptVals_ptInsert]
        refine List.nodup_cons.mpr ⟨?_, ?_⟩
        · intro hv
          obtain ⟨e, he, heq⟩ := List.mem_map.mp hv
          obtain ⟨hmem, _⟩ := (mem_ptErase _ _ _).mp he
          exact hnoval e hmem heq
        · exact (hinv.valsNodup.sublist (ptVals_erase_sublist _ _)).sublist
            (ptVals_erase_sublist _ _)
      · intro e he
        rcases (mem_ptInsert _ _ _ _).mp he with rfl | ⟨hmem, hne⟩
        · show (updFrame s.pages fid _ fid).pageId = s.nextPageId
          rw [updFrame_self]
        · obtain ⟨hmem', _⟩ := (mem_ptErase _ _ _).mp hmem
          have hvfid : e.2 ≠ fid := hnoval e hmem
          show (updFrame s.pages fid _ e.2).pageId = e.1
          rw [updFrame_other _ _ _ _ hvfid]
          exact hinv.framePid e hmem'
      · rw [ptKeys_ptInsert]
        refine List.nodup_cons.mpr ⟨?_, ?_⟩
        · intro hk
          obtain ⟨e, he, heq⟩ := List.mem_map.mp hk
          obtain ⟨_, hne⟩ := (mem_ptErase _ _ _).mp he
          exact hne heq
        · exact (hinv.keysNodup.sublist (ptKeys_erase_sublist _ _)).sublist
            (ptKeys_erase_sublist _ _)
      · exact hinv.freeNodup

theorem SysInv_FetchPage (s : BufferPoolManager) (pid : Int) (hinv : SysInv s) :
    SysInv (s.FetchPage pid).2.1 := by
  cases hl : ptLookup s.pageTable pid with
  | some fid =>
    rw [FetchPage_hit_eq s pid fid hl]
    have hmem := ptLookup_mem _ _ _ hl
    constructor
    · intro f hf
      simp only [recordSetE_isAccessible] at hf
      by_cases hffid : f = fid
      · rw [if_pos hffid] at hf; cases hf
      · rw [if_neg hffid] at hf
        show (updFrame s.pages fid _ f).pinCount = 0
        rw [updFrame_other _ _ _ _ hffid]
        exact hinv.pinAcc f hf
    · intro f hf
      simp only [recordSetE_isAccessible]
      by_cases hffid : f = fid
      · rw [if_pos hffid]
      · rw [if_neg hffid]
        exact hinv.freeAcc f hf
    · exact hinv.freeNotVal
    · exact hinv.valsNodup
    · intro e he
      show (updFrame s.pages fid _ e.2).pageId = e.1
      by_cases hefid : e.2 = fid
      · rw [hefid, updFrame_self]
        show (s.pages fid).pageId = e.1
        rw [← hefid]
        exact hinv.framePid e he
      · rw [updFrame_other _ _ _ _ hefid]
        exact hinv.framePid e he
    · exact hinv.keysNodup
    · exact hinv.freeNodup
  | none =>
    cases hpop : popBack s.freeList with
    | some pr =>
      obtain ⟨fid, rest⟩ := pr
      rw [FetchPage_free_eq s pid fid rest hl hpop]
      have hdec := popBack_decomp _ _ _ hpop
      have hfmem : fid ∈ s.freeList := by
        rw [hdec]; exact List.mem_append_right _ (List.mem_cons_self _ _)
      have hrest_sub : ∀ x ∈ rest, x ∈ s.freeList := by
        intro x hx; rw [hdec]; exact List.mem_append_left _ hx
      have hnodup := hinv.freeNodup
      rw [hdec, List.nodup_append] at hnodup
      have hfid_rest : fid ∉ rest := fun hx => hnodup.2.2 hx (List.mem_cons_self _ _)
      have hfacc : s.replacer.isAccessible fid = false := hinv.freeAcc fid hfmem
      have hacc_all := setERecord_isAccessible_of_false s.replacer fid hfacc
      constructor
      · intro f hf
        simp only [hacc_all] at hf
        by_cases hffid : f = fid
        · subst hffid
          rw [hfacc] at hf; cases hf
        · show (updFrame s.pages fid _ f).pinCount = 0
          rw [updFrame_other _ _ _ _ hffid]
          exact hinv.pinAcc f hf
      · intro f hf
        simp only [hacc_all]
        exact hinv.freeAcc f (hrest_sub f hf)
      · intro f hf e he
        rcases (mem_ptInsert _ _ _ _).mp he with rfl | ⟨hmem, _⟩
        · show fid ≠ f
          exact fun h => hfid_rest (h ▸ hf)
        · exact hinv.freeNotVal f (hrest_sub f hf) e hmem
      · rw [ptVals_ptInsert]
        refine List.nodup_cons.mpr ⟨?_, hinv.valsNodup.sublist (ptVals_erase_sublist _ _)⟩
        intro hv
        obtain ⟨e, he, heq⟩ := List.mem_map.mp hv
        obtain ⟨hmem, _⟩ := (mem_ptErase _ _ _).mp he
        exact hinv.freeNotVal fid hfmem e hmem heq
      · intro e he
        rcases (mem_ptInsert _ _ _ _).mp he with rfl | ⟨hmem, hne⟩
        · show (updFrame s.pages fid _ fid).pageId = pid
          rw [updFrame_self]
        · have hvfid : e.2 ≠ fid := hinv.freeNotVal fid hfmem e hmem
          show (updFrame s.pages fid _ e.2).pageId = e.1
          rw [updFrame_other _ _ _ _ hvfid]
          exact hinv.framePid e hmem
      · rw [ptKeys_ptInsert]
        refine List.nodup_cons.mpr ⟨?_, hinv.keysNodup.sublist (ptKeys_erase_sublist _ _)⟩
        intro hk
        obtain ⟨e, he, heq⟩ := List.mem_map.mp hk
        obtain ⟨_, hne⟩ := (mem_ptErase _ _ _).mp he
        exact hne heq
      · exact hnodup.1
    | none =>
      cases hev : s.replacer.Evict.1 with
      | none =>
        rw [FetchPage_fail_eq s pid hl hpop hev]
        exact hinv
      | some fid =>
        rw [FetchPage_evict_eq s pid fid hl hpop hev]
        obtain ⟨haccfid, hredacc⟩ := Evict_some_facts s.replacer fid hev
        have hfree_empty : s.freeList = [] := (popBack_none _).mp hpop
        have hracc : s.replacer.Evict.2.isAccessible fid = false := by
          rw [hredacc]
          simp
        have hacc_all : ∀ x,
            ((s.replacer.Evict.2.SetEvictableCore fid false).RecordAccessCore fid).isAccessible x
              = if x = fid then false else s.replacer.isAccessible x := by
          intro x
          rw [setERecord_isAccessible_of_false _ _ hracc, hredacc]
        have hnoval := no_val_after_erase s hinv fid
        constructor
        · intro f hf
          simp only [hacc_all] at hf
          by_cases hffid : f = fid
          · rw [if_pos hffid] at hf; cases hf
          · rw [if_neg hffid] at hf
            show (updFrame s.pages fid _ f).pinCount = 0
            rw [updFrame_other _ _ _ _ hffid]
            exact hinv.pinAcc f hf
        · intro f hf
          rw [hfree_empty] at hf
          cases hf
        · intro f hf
          rw [hfree_empty] at hf
          cases hf
        · rw [ptVals_ptInsert]
          refine List.nodup_cons.mpr ⟨?_, ?_⟩
          · intro hv
            obtain ⟨e, he, heq⟩ := List.mem_map.mp hv
            obtain ⟨hmem, _⟩ := (mem_ptErase _ _ _).mp he
            exact hnoval e hmem heq
          · exact (hinv.valsNodup.sublist (ptVals_erase_sublist _ _)).sublist
              (ptVals_erase_sublist _ _)
        · intro e he
          rcases (mem_ptInsert _ _ _ _).mp he with rfl | ⟨hmem, hne⟩
          · show (updFrame s.pages fid _ fid).pageId = pid
            rw [updFrame_self]
          · obtain ⟨hmem', _⟩ := (mem_ptErase _ _ _).mp hmem
            have hvfid : e.2 ≠ fid := hnoval e hmem
            show (updFrame s.pages fid _ e.2).pageId = e.1
            rw [updFrame_other _ _ _ _ hvfid]
            exact hinv.framePid e hmem'
        · rw [ptKeys_ptInsert]
          refine List.nodup_cons.mpr ⟨?_, ?_⟩
          · intro hk
            obtain ⟨e, he, heq⟩ := List.mem_map.mp hk
            obtain ⟨_, hne⟩ := (mem_ptErase _ _ _).mp he
            exact hne heq
          · exact (hinv.keysNodup.sublist (ptKeys_erase_sublist _ _)).sublist
              (ptKeys_erase_sublist _ _)
        · exact hinv.freeNodup

theorem SysInv_UnpinPage (s : BufferPoolManager) (pid : Int) (d : Bool)
    (hinv : SysInv s) : SysInv (s.UnpinPage pid d).2.1 := by
  cases hl : ptLookup s.pageTable pid with
  | none => rw [UnpinPage_none_eq s pid d hl]; exact hinv
  | some fid =>
    by_cases hp : (s.pages fid).pinCount = 0
    · rw [UnpinPage_zero_eq s pid d fid hl hp]; exact hinv
    · rw [UnpinPage_dec_eq s pid d fid hl hp]
      dsimp only
      have hmem := ptLookup_mem _ _ _ hl
      have hfid_not_free : fid ∉ s.freeList := fun hf =>
        hinv.freeNotVal fid hf (pid, fid) hmem rfl
      by_cases hz : (s.pages fid).pinCount - 1 = 0
      · rw [if_pos hz]
        constructor
        · intro f hf
          have hf2 : (s.replacer.SetEvictableCore fid true).isAccessible f = true := hf
          rw [SetEvictableCore_isAccessible_true s.replacer fid f] at hf2
          by_cases hffid : f = fid
          · subst hffid
            show (updFrame s.pages f _ f).pinCount = 0
            rw [updFrame_self]
            exact hz
          · rw [if_neg (by simp [hffid])] at hf2
            show (updFrame s.pages fid _ f).pinCount = 0
            rw [updFrame_other _ _ _ _ hffid]
            exact hinv.pinAcc f hf2
        · intro f hf
          have hffid : f ≠ fid := fun h => hfid_not_free (h ▸ hf)
          show (s.replacer.SetEvictableCore fid true).isAccessible f = false
          rw [SetEvictableCore_isAccessible_true s.replacer fid f,
            if_neg (by simp [hffid])]
          exact hinv.freeAcc f hf
        · exact hinv.freeNotVal
        · exact hinv.valsNodup
        · intro e he
          show (updFrame s.pages fid _ e.2).pageId = e.1
          by_cases hefid : e.2 = fid
          · rw [hefid, updFrame_self]
            show (s.pages fid).pageId = e.1
            rw [← hefid]
            exact hinv.framePid e he
          · rw [updFrame_other _ _ _ _ hefid]
            exact hinv.framePid e he
        · exact hinv.keysNodup
        · exact hinv.freeNodup
      · rw [if_neg hz]
        constructor
        · intro f hf
          by_cases hffid : f = fid
          · subst hffid
            exact absurd (hinv.pinAcc f hf) hp
          · show (updFrame s.pages fid _ f).pinCount = 0
            rw [updFrame_other _ _ _ _ hffid]
            exact hinv.pinAcc f hf
        · exact hinv.freeAcc
        · exact hinv.freeNotVal
        · exact hinv.valsNodup
        · intro e he
          show (updFrame s.pages fid _ e.2).pageId = e.1
          by_cases hefid : e.2 = fid
          · rw [hefid, updFrame_self]
            show (s.pages fid).pageId = e.1
            rw [← hefid]
            exact hinv.framePid e he
          · rw [updFrame_other _ _ _ _ hefid]
            exact hinv.framePid e he
        · exact hinv.keysNodup
        · exact hinv.freeNodup

theorem SysInv_FlushPage (s : BufferPoolManager) (pid : Int)
    (hinv : SysInv s) : SysInv (s.FlushPage pid).2.1 := by
  by_cases hpid : pid = INVALID_PAGE_ID
  · subst hpid
    rw [FlushPage_invalid_eq s]
    exact hinv
  · cases hl : ptLookup s.pageTable pid with
    | none => rw [FlushPage_none_eq s pid hpid hl]; exact hinv
    | some fid =>
      rw [FlushPage_some_eq s pid fid hpid hl]
      constructor
      · intro f hf
        by_cases hffid : f = fid
        · subst hffid
          show (updFrame s.pages f _ f).pinCount = 0
          rw [updFrame_self]
          exact hinv.pinAcc f hf
        · show (updFrame s.pages fid _ f).pinCount = 0
          rw [updFrame_other _ _ _ _ hffid]
          exact hinv.pinAcc f hf
      · exact hinv.freeAcc
      · exact hinv.freeNotVal
      · exact hinv.valsNodup
      · intro e he
        show (updFrame s.pages fid _ e.2).pageId = e.1
        by_cases hefid : e.2 = fid
        · rw [hefid, updFrame_self]
          show (s.pages fid).pageId = e.1
          rw [← hefid]
          exact hinv.framePid e he
        · rw [updFrame_other _ _ _ _ hefid]
          exact hinv.framePid e he
      · exact hinv.keysNodup
      · exact hinv.freeNodup

theorem SysInv_DeletePage (s : BufferPoolManager) (pid : Int)
    (hinv : SysInv s) : SysInv (s.DeletePage pid).2.1 := by
  cases hl : ptLookup s.pageTable pid with
  | none => rw [DeletePage_none_eq s pid hl]; exact hinv
  | some fid =>
    by_cases hp : (s.pages fid).pinCount ≠ 0
    · rw [DeletePage_pinned_eq s pid fid hl hp]; exact hinv
    · rw [DeletePage_go_eq s pid fid hl hp]
      have hmem := ptLookup_mem _ _ _ hl
      have hfid_not_free : fid ∉ s.freeList := fun hf =>
        hinv.freeNotVal fid hf (pid, fid) hmem rfl
      have hnoval : ∀ e ∈ ptErase s.pageTable pid, e.2 ≠ fid := by
        intro e he hval
        obtain ⟨hmem', hne⟩ := (mem_ptErase _ _ _).mp he
        have := vals_inj s.pageTable hinv.valsNodup e (pid, fid) hmem' hmem hval
        exact hne (by rw [this])
      constructor
      · intro f hf
        simp only [RemoveCore_isAccessible] at hf
        by_cases hffid : f = fid
        · rw [if_pos hffid] at hf; cases hf
        · rw [if_neg hffid] at hf
          show (updFrame s.pages fid _ f).pinCount = 0
          rw [updFrame_other _ _ _ _ hffid]
          exact hinv.pinAcc f hf
      · intro f hf
        simp only [RemoveCore_isAccessible]
        rcases List.mem_append.mp hf with hf' | hf'
        · have hffid : f ≠ fid := fun h => hfid_not_free (h ▸ hf')
          rw [if_neg hffid]
          exact hinv.freeAcc f hf'
        · obtain rfl : f = fid := List.mem_singleton.mp hf'
          rw [if_pos rfl]
      · intro f hf e he
        obtain ⟨hmem', _⟩ := (mem_ptErase _ _ _).mp he
        rcases List.mem_append.mp hf with hf' | hf'
        · exact hinv.freeNotVal f hf' e hmem'
        · obtain rfl : f = fid := List.mem_singleton.mp hf'
          exact hnoval e he
      · exact hinv.valsNodup.sublist (ptVals_erase_sublist _ _)
      · intro e he
        have hvfid : e.2 ≠ fid := hnoval e he
        obtain ⟨hmem', _⟩ := (mem_ptErase _ _ _).mp he
        show (updFrame s.pages fid _ e.2).pageId = e.1
        rw [updFrame_other _ _ _ _ hvfid]
        exact hinv.framePid e hmem'
      · exact hinv.keysNodup.sublist (ptKeys_erase_sublist _ _)
      · rw [List.nodup_append]
        exact ⟨hinv.freeNodup, List.nodup_singleton _, by
          intro x hx hx'
          obtain rfl : x = fid := List.mem_singleton.mp hx'
          exact hfid_not_free hx⟩

theorem SysInv_applyBP (s : BufferPoolManager) (op : BPOp) (hinv : SysInv s) :
    SysInv (applyBP s op) := by
  cases op with
  | newPage => exact SysInv_NewPage s hinv
  | fetch pid => exact SysInv_FetchPage s pid hinv
  | unpin pid d => exact SysInv_UnpinPage s pid d hinv
  | flush pid => exact SysInv_FlushPage s pid hinv
  | deletePage pid => exact SysInv_DeletePage s pid hinv

theorem SysInv_runBP (ops : List BPOp) :
    ∀ (s : BufferPoolManager), SysInv s → SysInv (runBP s ops) := by
  induction ops with
  | nil => intro s h; exact h
  | cons op ops ih =>
    intro s h
    show SysInv (runBP (applyBP s op) ops)
    exact ih _ (SysInv_applyBP s op h)

/-! ## Pin-count safety (C1) -/

theorem evictSafe_of_inv (s : BufferPoolManager) (hinv : SysInv s) :
    ∀ f : Nat, s.replacer.Evict.1 = some f → (s.pages f).pinCount = 0 :=
  fun f hf => hinv.pinAcc f (Evict_some_facts s.replacer f hf).1

theorem fetchPins_of_inv (s : BufferPoolManager) (hinv : SysInv s)
    (pid : Int) (fid : Nat) (h : (s.FetchPage pid).1 = some fid) :
    ((s.FetchPage pid).2.1.pages fid).pinCount ≠ 0
    ∧ (s.FetchPage pid).2.1.replacer.isAccessible fid = false := by
  cases hl : ptLookup s.pageTable pid with
  | some fid' =>
    rw [FetchPage_hit_eq s pid fid' hl] at h ⊢
    obtain rfl : fid' = fid := by simpa using h
    constructor
    · show (updFrame s.pages fid' _ fid').pinCount ≠ 0
      rw [updFrame_self]
      simp
    · show ((s.replacer.RecordAccessCore fid').SetEvictableCore fid' false).isAccessible fid'
        = false
      simp [recordSetE_isAccessible]
  | none =>
    cases hpop : popBack s.freeList with
    | some pr =>
      obtain ⟨fid', rest⟩ := pr
      rw [FetchPage_free_eq s pid fid' rest hl hpop] at h ⊢
      obtain rfl : fid' = fid := by simpa using h
      have hdec := popBack_decomp _ _ _ hpop
      have hfmem : fid' ∈ s.freeList := by
        rw [hdec]; exact List.mem_append_right _ (List.mem_cons_self _ _)
      have hfacc : s.replacer.isAccessible fid' = false := hinv.freeAcc fid' hfmem
      constructor
      · show (updFrame s.pages fid' _ fid').pinCount ≠ 0
        rw [updFrame_self]
        simp
      · show ((s.replacer.SetEvictableCore fid' false).RecordAccessCore fid').isAccessible fid'
          = false
        rw [setERecord_isAccessible_of_false s.replacer fid' hfacc]
        exact hfacc
    | none =>
      cases hev : s.replacer.Evict.1 with
      | none =>
        rw [FetchPage_fail_eq s pid hl hpop hev] at h
        cases h
      | some fid' =>
        rw [FetchPage_evict_eq s pid fid' hl hpop hev] at h ⊢
        obtain rfl : fid' = fid := by simpa using h
        obtain ⟨_, hredacc⟩ := Evict_some_facts s.replacer fid' hev
        have hracc : s.replacer.Evict.2.isAccessible fid' = false := by
          rw [hredacc]; simp
        constructor
        · show (updFrame s.pages fid' _ fid').pinCount ≠ 0
          rw [updFrame_self]
          simp
        · show ((s.replacer.Evict.2.SetEvictableCore fid' false).RecordAccessCore fid').isAccessible fid'
            = false
          rw [setERecord_isAccessible_of_false _ fid' hracc]
          exact hracc

theorem newPins_of_inv (s : BufferPoolManager) (hinv : SysInv s)
    (pid : Int) (fid : Nat) (h : s.NewPage.1 = some (pid, fid)) :
    (s.NewPage.2.1.pages fid).pinCount ≠ 0
    ∧ s.NewPage.2.1.replacer.isAccessible fid = false := by
  cases hpop : popBack s.freeList with
  | some pr =>
    obtain ⟨fid', rest⟩ := pr
    rw [NewPage_free_eq s fid' rest hpop] at h ⊢
    obtain ⟨rfl, rfl⟩ : s.nextPageId = pid ∧ fid' = fid := by simpa using h
    constructor
    · show (updFrame s.pages fid' _ fid').pinCount ≠ 0
      rw [updFrame_self]
      simp
    · show ((s.replacer.RecordAccessCore fid').SetEvictableCore fid' false).isAccessible fid'
        = false
      simp [recordSetE_isAccessible]
  | none =>
    cases hev : s.replacer.Evict.1 with
    | none =>
      rw [NewPage_fail_eq s hpop hev] at h
      cases h
    | some fid' =>
      rw [NewPage_evict_eq s fid' hpop hev] at h ⊢
      obtain ⟨rfl, rfl⟩ : s.nextPageId = pid ∧ fid' = fid := by simpa using h
      have hacc_all : ∀ x,
          ((s.replacer.Evict.2.RecordAccessCore fid').SetEvictableCore fid' false).isAccessible x
            = if x = fid' then false else s.replacer.isAccessible x := by
        obtain ⟨_, hredacc⟩ := Evict_some_facts s.replacer fid' hev
        intro x
        simp only [recordSetE_isAccessible, hredacc]
        by_cases hx : x = fid'
        · simp [hx]
        · simp [hx]
      constructor
      · show (updFrame s.pages fid' _ fid').pinCount ≠ 0
        rw [updFrame_self]
        simp
      · rw [hacc_all fid', if_pos rfl]

/-- C1: in every state reachable from a fresh pool by any sequence of
`NewPage`, `FetchPage`, `UnpinPage`, `FlushPage`, `DeletePage` calls, the
replacer's `Evict` never returns a frame whose pin count is non-zero; and
every fetch or create leaves the returned frame pinned and non-evictable. -/
theorem c1_pin_safety (ps k : Nat) (d : Int → Nat) (ops : List BPOp) :
    (∀ f : Nat, (runBP (initBPM ps k d) ops).replacer.Evict.1 = some f →
        ((runBP (initBPM ps k d) ops).pages f).pinCount = 0)
    ∧ (∀ (pid : Int) (fid : Nat),
        ((runBP (initBPM ps k d) ops).FetchPage pid).1 = some fid →
          (((runBP (initBPM ps k d) ops).FetchPage pid).2.1.pages fid).pinCount ≠ 0
          ∧ ((runBP (initBPM ps k d) ops).FetchPage pid).2.1.replacer.isAccessible fid
              = false)
    ∧ (∀ (pid : Int) (fid : Nat),
        (runBP (initBPM ps k d) ops).NewPage.1 = some (pid, fid) →
          ((runBP (initBPM ps k d) ops).NewPage.2.1.pages fid).pinCount ≠ 0
          ∧ (runBP (initBPM ps k d) ops).NewPage.2.1.replacer.isAccessible fid = false) := by
  have hinv := SysInv_runBP ops _ (SysInv_init ps k d)
  exact ⟨evictSafe_of_inv _ hinv,
    fun pid fid => fetchPins_of_inv _ hinv pid fid,
    fun pid fid => newPins_of_inv _ hinv pid fid⟩

theorem c1_pin_safety_witness :
    (bpmW.replacer.Evict.1 = some 0 ∧ (bpmW.pages 0).pinCount = 0)
    ∧ ((bpmW.FetchPage 0).1 = some 0
        ∧ ((bpmW.FetchPage 0).2.1.pages 0).pinCount ≠ 0
        ∧ (bpmW.FetchPage 0).2.1.replacer.isAccessible 0 = false)
    ∧ (bpmW.NewPage.1 = some (1, 0)
        ∧ (bpmW.NewPage.2.1.pages 0).pinCount ≠ 0
        ∧ bpmW.NewPage.2.1.replacer.isAccessible 0 = false) := by
  have hc := c1_pin_safety 1 1 (fun _ => 0) [BPOp.newPage, BPOp.unpin 0 true]
  have h2 := hc.2.1 0 0 (by rfl)
  have h3 := hc.2.2 1 0 (by rfl)
  exact ⟨⟨rfl, hc.1 0 (by rfl)⟩, ⟨rfl, h2.1, h2.2⟩, ⟨rfl, h3.1, h3.2⟩⟩

/-! ## Dirty write-back on displacement (C2) -/

/-- C2: when `NewPage` or `FetchPage` repurposes an evicted victim frame,
exactly one `write_page` call with the frame's old page id and its current
contents is issued iff the victim was dirty (none when clean), and after the
operation the old page id has been erased from the page table (it can only
reappear as the newly installed id itself). -/
theorem c2_dirty_writeback (s : BufferPoolManager) (fid : Nat)
    (hfree : s.freeList = [])
    (hev : s.replacer.Evict.1 = some fid) :
    (s.NewPage.2.2.count (DiskOp.write (s.pages fid).pageId (s.pages fid).data)
        = if (s.pages fid).isDirty then 1 else 0)
    ∧ ((s.pages fid).isDirty = false → s.NewPage.2.2 = [])
    ∧ ((s.pages fid).pageId ≠ s.nextPageId →
        ptLookup s.NewPage.2.1.pageTable (s.pages fid).pageId = none)
    ∧ ∀ pid : Int, ptLookup s.pageTable pid = none →
        ((s.FetchPage pid).2.2.count
            (DiskOp.write (s.pages fid).pageId (s.pages fid).data)
          = if (s.pages fid).isDirty then 1 else 0)
        ∧ ((s.pages fid).isDirty = false → (s.FetchPage pid).2.2 = [DiskOp.read pid])
        ∧ ((s.pages fid).pageId ≠ pid →
            ptLookup (s.FetchPage pid).2.1.pageTable (s.pages fid).pageId = none) := by
  have hpop : popBack s.freeList = none := by
    rw [hfree]
    rfl
  refine ⟨?_, ?_, ?_, ?_⟩
  · rw [NewPage_evict_eq s fid hpop hev]
    by_cases hd : (s.pages fid).isDirty
    · simp only [if_pos hd]
      simp
    · simp only [if_neg hd]
      rfl
  · intro hd
    rw [NewPage_evict_eq s fid hpop hev]
    simp [hd]
  · intro hne
    rw [NewPage_evict_eq s fid hpop hev]
    show ptLookup (ptInsert (ptErase s.pageTable (s.pages fid).pageId) s.nextPageId fid)
        (s.pages fid).pageId = none
    rw [ptLookup_ptInsert_ne _ _ _ _ hne, ptLookup_ptErase_self]
  · intro pid hl
    rw [FetchPage_evict_eq s pid fid hl hpop hev]
    refine ⟨?_, ?_, ?_⟩
    · by_cases hd : (s.pages fid).isDirty
      · simp only [if_pos hd]
        simp
      · simp only [if_neg hd]
        simp
    · intro hd
      simp [hd]
    · intro hne
      show ptLookup (ptInsert (ptErase s.pageTable (s.pages fid).pageId) pid fid)
          (s.pages fid).pageId = none
      rw [ptLookup_ptInsert_ne _ _ _ _ hne, ptLookup_ptErase_self]

theorem c2_dirty_writeback_witness :
    bpmW.freeList = []
    ∧ bpmW.replacer.Evict.1 = some 0
    ∧ ptLookup bpmW.pageTable 5 = none
    ∧ (bpmW.NewPage.2.2.count (DiskOp.write (bpmW.pages 0).pageId (bpmW.pages 0).data)
        = if (bpmW.pages 0).isDirty then 1 else 0)
    ∧ ((bpmW.FetchPage 5).2.2.count
          (DiskOp.write (bpmW.pages 0).pageId (bpmW.pages 0).data)
        = if (bpmW.pages 0).isDirty then 1 else 0) := by
  have hc := c2_dirty_writeback bpmW 0 (by rfl) (by rfl)
  exact ⟨rfl, rfl, rfl, hc.1, (hc.2.2.2 5 (by rfl)).1⟩

/-! ## FlushPage semantics (C10) -/

/-- C10: `FlushPage` returns `false` for `INVALID_PAGE_ID` or a non-resident
page (leaving the state untouched); otherwise it writes the frame's contents
to disk unconditionally — dirty or clean — clears the frame's dirty flag,
returns `true`, and leaves the frame's pin count, the page table, the free
list and the replacer unchanged. -/
theorem c10_flush_spec (s : BufferPoolManager) (pid : Int) :
    (pid = INVALID_PAGE_ID → s.FlushPage pid = (false, s, []))
    ∧ (ptLookup s.pageTable pid = none → s.FlushPage pid = (false, s, []))
    ∧ (∀ fid : Nat, pid ≠ INVALID_PAGE_ID → ptLookup s.pageTable pid = some fid →
        (s.FlushPage pid).1 = true
        ∧ (s.FlushPage pid).2.2
            = [DiskOp.write (s.pages fid).pageId (s.pages fid).data]
        ∧ (s.FlushPage pid).2.1.pages fid = { s.pages fid with isDirty := false }
        ∧ ((s.FlushPage pid).2.1.pages fid).pinCount = (s.pages fid).pinCount
        ∧ (∀ g, g ≠ fid → (s.FlushPage pid).2.1.pages g = s.pages g)
        ∧ (s.FlushPage pid).2.1.pageTable = s.pageTable
        ∧ (s.FlushPage pid).2.1.freeList = s.freeList
        ∧ (s.FlushPage pid).2.1.replacer = s.replacer) := by
  refine ⟨?_, ?_, ?_⟩
  · intro h
    subst h
    exact FlushPage_invalid_eq s
  · intro hl
    by_cases hpid : pid = INVALID_PAGE_ID
    · subst hpid
      exact FlushPage_invalid_eq s
    · exact FlushPage_none_eq s pid hpid hl
  · intro fid hpid hl
    rw [FlushPage_some_eq s pid fid hpid hl]
    refine ⟨rfl, rfl, ?_, ?_, ?_, rfl, rfl, rfl⟩
    · show updFrame s.pages fid _ fid = _
      rw [updFrame_self]
    · show (updFrame s.pages fid _ fid).pinCount = _
      rw [updFrame_self]
    · intro g hg
      show updFrame s.pages fid _ g = s.pages g
      rw [updFrame_other _ _ _ _ hg]

theorem c10_flush_spec_witness :
    ((-1 : Int) = INVALID_PAGE_ID ∧ bpmW.FlushPage (-1) = (false, bpmW, []))
    ∧ (ptLookup bpmW.pageTable 7 = none ∧ bpmW.FlushPage 7 = (false, bpmW, []))
    ∧ ((0 : Int) ≠ INVALID_PAGE_ID ∧ ptLookup bpmW.pageTable 0 = some 0
        ∧ (bpmW.FlushPage 0).1 = true
        ∧ ((bpmW.FlushPage 0).2.1.pages 0).pinCount = (bpmW.pages 0).pinCount) := by
  have h3 := (c10_flush_spec bpmW 0).2.2 0 (by decide) (by rfl)
  exact ⟨⟨rfl, (c10_flush_spec bpmW (-1)).1 rfl⟩,
    ⟨rfl, (c10_flush_spec bpmW 7).2.1 (by rfl)⟩,
    ⟨by decide, rfl, h3.1, h3.2.2.2.1⟩⟩

end BusTub
